import Mathlib

/-!
# modulejs: a shallow embedding of `src/modulejs.js`

The registry of `create()` is embedded as explicit state passing.

* The two closure variables `definitions` and `instances` are JavaScript plain
  objects; they are embedded as `Table`s: the list of own properties in
  insertion order, together with what an assignment to the key `__proto__`
  installed as the prototype.  Such an assignment runs the inherited setter
  and creates no own property, until `null` has been installed: from then on
  the setter is no longer inherited and `__proto__` is written as an own
  property like any other key.
* `has(x, id)` looks at own properties only, as `hasOwnProperty` does, while
  the plain read `definitions[id]` of `resolve` also walks the prototype chain
  (`getDef`).
* `resolve` is embedded once for each value of its flag `onlyDepIds`, which the
  recursion passes on unchanged: `resolve` (value mode) and `resolveDepIds`
  (id-list mode).  The recursion is bounded by a fuel argument; `require`
  supplies `fuelFor`, which is shown to be enough.
* A factory is a JavaScript function.  It is embedded as a function of the
  number of factory invocations made so far in the registry and of its
  arguments, so that a factory which allocates (`function () { return {}; }`)
  can return a different reference on each invocation.  Factories do not throw
  and do not call back into the registry.
* A thrown exception leaves the tables as they are at the throw, so every
  operation returns its outcome together with the state.
* `state` walks `definitions` with `each`, which takes an object that has a
  `length` property for an array (`eachDefinition`) and otherwise follows the
  order of `Object.keys` (`objectEntries`).
-/

namespace Modulejs

/-- JavaScript values as far as the registry tells them apart: primitive
strings (the only values `isString` accepts), the other primitives, and
references to non-string objects (`obj n`, equal only to itself). -/
inductive Val where
  | undefined
  | null
  | bool (b : Bool)
  | num (n : Int)
  | str (s : String)
  | obj (ref : Nat)
  deriving DecidableEq, Repr

/-- The exceptions of the program.  The first five are raised by `assert`
(`'[modulejs] ' + message`) and carry what the message names; `typeError` is
the engine's `TypeError` for `def.fn.apply` when `def.fn` is `undefined`. -/
inductive Err where
  | invalidId (id : Val)
  | undefinedId (id : String)
  | circularDependency (depId : Val) (stack : List String)
  | duplicateId (id : String)
  | invalidDeps (id : String)
  | typeError
  deriving DecidableEq, Repr

/-- An exception thrown inside `resolve`, with the resolution stack of the
frame that threw (`stack` of line 108 once built, the caller's stack before). -/
structure Thrown where
  err : Err
  stack : List String
  deriving DecidableEq, Repr

/-- A JavaScript plain object used as a dictionary. -/
structure Table (α : Type) where
  own : List (String × α)
  proto : Option α

/-- The empty object literal. -/
def Table.empty {α : Type} : Table α := ⟨[], none⟩

/-- Value of the own property `id`, if there is one. -/
def ownGet {α : Type} : List (String × α) → String → Option α
  | [], _ => none
  | (k, v) :: rest, id => if k = id then some v else ownGet rest id

/-- Own property names, in insertion order. -/
def keys {α : Type} (own : List (String × α)) : List String := own.map Prod.fst

/-- Assignment to an own property: overwrite in place, or append. -/
def ownSet {α : Type} : List (String × α) → String → α → List (String × α)
  | [], id, v => [(id, v)]
  | (k, w) :: rest, id, v => if k = id then (k, v) :: rest else (k, w) :: ownSet rest id v

/-- The function `has` of lines 32-34: own properties only. -/
def has {α : Type} (x : Table α) (id : String) : Bool := (ownGet x.own id).isSome

/-- Whether the assignment `x[id] = v` is taken by the `__proto__` setter that
plain objects inherit from `Object.prototype`: the key is `__proto__`, it is
not an own property, and the setter is still inherited.  It is inherited from
the start and as long as the prototype is an object (objects installed as
prototype are taken to be plain objects, whose chain ends in
`Object.prototype`); once `null` has been installed as prototype nothing is
inherited any more. -/
def Table.viaSetter {α : Type} (isNull : α → Bool) (x : Table α) (id : String) : Bool :=
  !has x id && decide (id = "__proto__") &&
    match x.proto with
    | some p => !isNull p
    | none => true

/-- The assignment `x[id] = v`.  When the inherited `__proto__` setter takes
it (`Table.viaSetter`), the setter replaces the prototype if `v` is an object
or `null` (`accepts`) and does nothing otherwise, and no own property is
created.  In every other case the own property `id` is written; this includes
the key `__proto__` on an object whose prototype has become `null`. -/
def Table.set {α : Type} (accepts isNull : α → Bool) (x : Table α) (id : String) (v : α) :
    Table α :=
  if Table.viaSetter isNull x id then
    (if accepts v then { x with proto := some v } else x)
  else { x with own := ownSet x.own id v }

/-- Whether the `__proto__` setter accepts the value. -/
def Val.isObjectOrNull : Val → Bool
  | .obj _ => true
  | .null => true
  | _ => false

/-- Whether the value is `null`. -/
def Val.isNull : Val → Bool
  | .null => true
  | _ => false

/-- An entry of `definitions`: the object literal of lines 154-158. -/
structure Definition where
  id : String
  deps : List Val
  fn : Nat → List Val → Val

/-- The second argument of `define`: an array, or anything else. -/
inductive DepsArg where
  | array (elements : List Val)
  | other (v : Val)

/-- The last argument of `define`: a function, or a value that is not one. -/
inductive DefArg where
  | function (f : Nat → List Val → Val)
  | value (v : Val)

/-- The state of one registry: the closure variables `definitions` and
`instances` of `create`, and the ids whose factory has been invoked so far,
oldest first (a trace kept for reasoning; the program does not store it). -/
structure Registry where
  definitions : Table Definition
  instances : Table Val
  calls : List String

/-- The function `create` of lines 77-241: both tables start empty. -/
def create : Registry := ⟨Table.empty, Table.empty, []⟩

/-- Names that every plain object inherits from `Object.prototype`; reading
any of them yields a function or, for `__proto__`, the prototype object. -/
def objectPrototypeKeys : List String :=
  ["constructor", "hasOwnProperty", "isPrototypeOf", "propertyIsEnumerable",
   "toLocaleString", "toString", "valueOf", "__defineGetter__", "__defineSetter__",
   "__lookupGetter__", "__lookupSetter__", "__proto__"]

/-- What the read `definitions[id]` of line 104 finds. -/
inductive Found where
  | missing
  | record (d : Definition)
  | foreign

/-- The read `definitions[id]` of line 104, through the prototype chain: an
own entry; else, when `define` installed a record as prototype, that record
for `__proto__` and its fields for `id`, `deps` and `fn`; else what
`Object.prototype` provides.  `missing` stands for a falsy result, `foreign`
for a truthy value that has neither a `deps` nor a `fn` property. -/
def getDef (definitions : Table Definition) (id : String) : Found :=
  match ownGet definitions.own id with
  | some d => .record d
  | none =>
    match definitions.proto with
    | some p =>
      if id = "__proto__" then .record p
      else if id = "id" then (if p.id = "" then .missing else .foreign)
      else if id = "deps" ∨ id = "fn" then .foreign
      else if id ∈ objectPrototypeKeys then .foreign
      else .missing
    | none => if id ∈ objectPrototypeKeys then .foreign else .missing

/-- The function `contains` of lines 50-52 on a stack of ids: `indexOf`
compares with `===`, so only a string can be found. -/
def contains (stack : List String) (val : Val) : Bool :=
  match val with
  | .str s => decide (s ∈ stack)
  | _ => false

/-- The property key that a value used as `elements[el]` is converted to.
Strings are their own key; objects are taken to be plain objects. -/
def propertyKey : Val → String
  | .undefined => "undefined"
  | .null => "null"
  | .bool b => if b then "true" else "false"
  | .num n => toString n
  | .str s => s
  | .obj _ => "[object Object]"

/-- One step of the loop of `uniq` (lines 60-65): `elements` is an object used
as a set, tested with `has` and written with `elements[el] = 1`. -/
def uniqStep (acc : Table Nat × List Val) (el : Val) : Table Nat × List Val :=
  if has acc.1 (propertyKey el) then acc
  else (Table.set (fun _ => false) (fun _ => false) acc.1 (propertyKey el) 1, acc.2 ++ [el])

/-- The function `uniq` of lines 56-68. -/
def uniq (array : List Val) : List Val :=
  (array.foldl uniqStep (Table.empty, [])).2

/-- The effective instance table `resolvedInstances` of a value-mode
resolution, with the trace of factory invocations. -/
structure Run where
  table : Table Val
  calls : List String

/-- The loop `each(def.deps, ...)` of lines 115-126 in value mode, `rec`
being the recursive call of line 124: the values of the dependencies in
declared order, or the first exception. -/
def eachDep (rec : Val → List String → Run → Option (Except Thrown Val × Run))
    (stack : List String) : List Val → Run → Option (Except Thrown (List Val) × Run)
  | [], run => some (.ok [], run)
  | depId :: rest, run =>
    if contains stack depId then
      some (.error ⟨.circularDependency depId stack, stack⟩, run)
    else
      match rec depId stack run with
      | none => none
      | some (.error e, run1) => some (.error e, run1)
      | some (.ok v, run1) =>
        match eachDep rec stack rest run1 with
        | none => none
        | some (.error e, run2) => some (.error e, run2)
        | some (.ok vs, run2) => some (.ok (v :: vs), run2)

/-- The function `resolve` of lines 89-137 with `onlyDepIds` false: the check
of line 92, the memo of lines 99-101 (`has` and the read of the own property in
one lookup), the read of line 104 with the assertion of line 105, the loop over
`def.deps` on the extended stack, and lines 134-136, where an inherited value
has no `fn` to apply.  The result is `none` only when the fuel runs out. -/
def resolve (definitions : Table Definition) :
    Nat → Val → List String → Run → Option (Except Thrown Val × Run)
  | 0, _, _, _ => none
  | fuel + 1, id, stack, run =>
    match id with
    | .str s =>
      match ownGet run.table.own s with
      | some v => some (.ok v, run)
      | none =>
        match getDef definitions s with
        | .missing => some (.error ⟨.undefinedId s, stack⟩, run)
        | .foreign => some (.error ⟨.typeError, stack ++ [s]⟩, run)
        | .record d =>
          match eachDep (resolve definitions fuel) (stack ++ [s]) d.deps run with
          | none => none
          | some (.error e, run1) => some (.error e, run1)
          | some (.ok deps, run1) =>
            let obj := d.fn run1.calls.length deps
            some (.ok obj, ⟨Table.set Val.isObjectOrNull Val.isNull run1.table s obj, run1.calls ++ [s]⟩)
    | _ => some (.error ⟨.invalidId id, stack⟩, run)

/-- The loop `each(def.deps, ...)` of lines 115-126 in id-list mode, `rec`
being the recursive call of line 121: for each dependency its own list, then
the dependency itself. -/
def eachDepId (rec : Val → List String → Option (Except Thrown (List Val)))
    (stack : List String) : List Val → Option (Except Thrown (List Val))
  | [] => some (.ok [])
  | depId :: rest =>
    if contains stack depId then
      some (.error ⟨.circularDependency depId stack, stack⟩)
    else
      match rec depId stack with
      | none => none
      | some (.error e) => some (.error e)
      | some (.ok ids) =>
        match eachDepId rec stack rest with
        | none => none
        | some (.error e) => some (.error e)
        | some (.ok more) => some (.ok (ids ++ depId :: more))

/-- The function `resolve` of lines 89-137 with `onlyDepIds` true.  The
instance tables are neither read nor written in this mode. -/
def resolveDepIds (definitions : Table Definition) :
    Nat → Val → List String → Option (Except Thrown (List Val))
  | 0, _, _ => none
  | fuel + 1, id, stack =>
    match id with
    | .str s =>
      match getDef definitions s with
      | .missing => some (.error ⟨.undefinedId s, stack⟩)
      | .foreign => some (.ok (uniq []))
      | .record d =>
        match eachDepId (resolveDepIds definitions fuel) (stack ++ [s]) d.deps with
        | none => none
        | some (.error e) => some (.error e)
        | some (.ok deps) => some (.ok (uniq deps))
    | _ => some (.error ⟨.invalidId id, stack⟩)

/-- Fuel that `resolve` never exhausts: the stack holds distinct ids that
have a record, which are own keys of `definitions` or `__proto__`. -/
def fuelFor (definitions : Table Definition) : Nat := definitions.own.length + 2

/-- The ids that `define` has given a record: `__proto__` when a record was
installed as the prototype, and the own keys of `definitions`. -/
def recordIds (definitions : Table Definition) : List String :=
  (match definitions.proto with
    | some _ => ["__proto__"]
    | none => []) ++ keys definitions.own

/-- The number of defined ids. -/
def definedCount (definitions : Table Definition) : Nat := (recordIds definitions).length

/-- The function `define` of lines 141-159 called with three arguments. -/
def define (r : Registry) (id : Val) (deps : DepsArg) (defn : DefArg) :
    Except Err Unit × Registry :=
  match id with
  | .str s =>
    if has r.definitions s then (.error (.duplicateId s), r)
    else
      match deps with
      | .other _ => (.error (.invalidDeps s), r)
      | .array ds =>
        let fn : Nat → List Val → Val :=
          match defn with
          | .function f => f
          | .value v => fun _ _ => v
        (.ok (), { r with definitions := Table.set (fun _ => true) (fun _ => false) r.definitions s ⟨s, ds, fn⟩ })
  | _ => (.error (.invalidId id), r)

/-- What a call of `require` leaves behind: its result or exception, the
registry, and the caller's `fakeInstances` object when one was passed. -/
structure Outcome where
  result : Except Thrown Val
  registry : Registry
  fakes : Option (Table Val)

/-- The function `require` of lines 163-166.  `fakeInstances` is `none` when
the argument is omitted (or falsy), so that line 95 picks `instances`. -/
def require (r : Registry) (id : Val) (fakeInstances : Option (Table Val)) : Option Outcome :=
  match fakeInstances with
  | none =>
    match resolve r.definitions (fuelFor r.definitions) id [] ⟨r.instances, r.calls⟩ with
    | none => none
    | some (res, run) => some ⟨res, { r with instances := run.table, calls := run.calls }, none⟩
  | some fakes =>
    match resolve r.definitions (fuelFor r.definitions) id [] ⟨fakes, r.calls⟩ with
    | none => none
    | some (res, run) => some ⟨res, { r with calls := run.calls }, some run.table⟩

/-- The call `resolve(id, true)` that `state` makes at line 182. -/
def requireDepIds (r : Registry) (id : Val) : Option (Except Thrown (List Val)) :=
  resolveDepIds r.definitions (fuelFor r.definitions) id []

/-- Registry states that calls of `define` and of `require` without
`fakeInstances` produce from a fresh registry, failed calls included. -/
inductive Reachable : Registry → Prop where
  | create : Reachable create
  | define (r : Registry) (id : Val) (deps : DepsArg) (defn : DefArg) :
      Reachable r → Reachable (define r id deps defn).2
  | require (r : Registry) (id : Val) (out : Outcome) :
      Reachable r → require r id none = some out → Reachable out.registry

/-- A unit of work of a value-mode resolution: one call of `resolve`, or the
loop over the dependencies left to visit. -/
inductive Task where
  | one (id : Val) (stack : List String)
  | each (deps : List Val) (stack : List String)

/-- What a unit of work ends with. -/
inductive Res where
  | one (r : Except Thrown Val)
  | each (r : Except Thrown (List Val))

/-- Big-step reading of `resolve` and `eachDep`, one rule per path through the
code; `resolve_sound` derives it from the functions. -/
inductive Eval (defs : Table Definition) : Task → Run → Res → Run → Prop where
  | invalidId (id : Val) (stack : List String) (run : Run) :
      (∀ s, id ≠ .str s) →
      Eval defs (.one id stack) run (.one (.error ⟨.invalidId id, stack⟩)) run
  | memo (s : String) (stack : List String) (run : Run) (v : Val) :
      ownGet run.table.own s = some v →
      Eval defs (.one (.str s) stack) run (.one (.ok v)) run
  | undefinedId (s : String) (stack : List String) (run : Run) :
      ownGet run.table.own s = none → getDef defs s = .missing →
      Eval defs (.one (.str s) stack) run (.one (.error ⟨.undefinedId s, stack⟩)) run
  | foreign (s : String) (stack : List String) (run : Run) :
      ownGet run.table.own s = none → getDef defs s = .foreign →
      Eval defs (.one (.str s) stack) run (.one (.error ⟨.typeError, stack ++ [s]⟩)) run
  | depsThrow (s : String) (stack : List String) (run : Run) (d : Definition)
      (e : Thrown) (run1 : Run) :
      ownGet run.table.own s = none → getDef defs s = .record d →
      Eval defs (.each d.deps (stack ++ [s])) run (.each (.error e)) run1 →
      Eval defs (.one (.str s) stack) run (.one (.error e)) run1
  | build (s : String) (stack : List String) (run : Run) (d : Definition)
      (vs : List Val) (run1 : Run) :
      ownGet run.table.own s = none → getDef defs s = .record d →
      Eval defs (.each d.deps (stack ++ [s])) run (.each (.ok vs)) run1 →
      Eval defs (.one (.str s) stack) run (.one (.ok (d.fn run1.calls.length vs)))
        ⟨Table.set Val.isObjectOrNull Val.isNull run1.table s (d.fn run1.calls.length vs),
          run1.calls ++ [s]⟩
  | done (stack : List String) (run : Run) :
      Eval defs (.each [] stack) run (.each (.ok [])) run
  | circular (depId : Val) (rest : List Val) (stack : List String) (run : Run) :
      contains stack depId = true →
      Eval defs (.each (depId :: rest) stack) run
        (.each (.error ⟨.circularDependency depId stack, stack⟩)) run
  | headThrow (depId : Val) (rest : List Val) (stack : List String) (run : Run)
      (e : Thrown) (run1 : Run) :
      contains stack depId = false →
      Eval defs (.one depId stack) run (.one (.error e)) run1 →
      Eval defs (.each (depId :: rest) stack) run (.each (.error e)) run1
  | tailThrow (depId : Val) (rest : List Val) (stack : List String) (run : Run)
      (v : Val) (run1 : Run) (e : Thrown) (run2 : Run) :
      contains stack depId = false →
      Eval defs (.one depId stack) run (.one (.ok v)) run1 →
      Eval defs (.each rest stack) run1 (.each (.error e)) run2 →
      Eval defs (.each (depId :: rest) stack) run (.each (.error e)) run2
  | next (depId : Val) (rest : List Val) (stack : List String) (run : Run)
      (v : Val) (run1 : Run) (vs : List Val) (run2 : Run) :
      contains stack depId = false →
      Eval defs (.one depId stack) run (.one (.ok v)) run1 →
      Eval defs (.each rest stack) run1 (.each (.ok vs)) run2 →
      Eval defs (.each (depId :: rest) stack) run (.each (.ok (v :: vs))) run2

/-- A declared dependency edge: `a` is an id of the definition table and `b`
is an element of its `deps`. -/
def DependsOn (defs : Table Definition) (a b : Val) : Prop :=
  ∃ s d, a = .str s ∧ ownGet defs.own s = some d ∧ b ∈ d.deps

/-- Reachability along declared dependency edges, in zero or more steps. -/
def Reaches (defs : Table Definition) : Val → Val → Prop :=
  Relation.ReflTransGen (DependsOn defs)

/-- A dependency chain that comes back to `y`. -/
def OnCycle (defs : Table Definition) (y : Val) : Prop :=
  Relation.TransGen (DependsOn defs) y y

/-- Everything reachable from `id` is an id of the definition table. -/
def FullyDefined (defs : Table Definition) (id : Val) : Prop :=
  ∀ y, Reaches defs id y → ∃ s, y = .str s ∧ has defs s = true

/-- No dependency chain starting at `id` revisits an id. -/
def Acyclic (defs : Table Definition) (id : Val) : Prop :=
  ∀ y, Reaches defs id y → ¬ OnCycle defs y

/-- The ids of an instance table, oldest first, were each built from a
definition whose dependencies were instantiated before, the id `__proto__`
apart: a table keeps it only once its prototype has become `null`, and then
whatever the definition table holds. -/
inductive Settled (defs : Table Definition) : List String → Prop where
  | nil : Settled defs []
  | snoc (ks : List String) (k : String) (d : Definition) :
      Settled defs ks → k ∉ ks → ownGet defs.own k = some d →
      (∀ dep ∈ d.deps, ∃ s, dep = .str s ∧ (s ∈ ks ∨ s = "__proto__")) →
      Settled defs (ks ++ [k])
  | proto (ks : List String) : Settled defs ks → Settled defs (ks ++ ["__proto__"])

/-! ## `define` with two arguments, and `state` -/

/-- The function `define` of lines 141-159 called with two arguments: line 144
takes the second argument as the definition and `[]` as the dependencies. -/
def define2 (r : Registry) (id : Val) (defn : DefArg) : Except Err Unit × Registry :=
  define r id (.array []) defn

/-- Value of a decimal digit. -/
def digitValue (c : Char) : Option Nat :=
  if 48 ≤ c.toNat ∧ c.toNat ≤ 57 then some (c.toNat - 48) else none

/-- Value of a string of decimal digits, continuing from `acc`. -/
def decimalValue : List Char → Nat → Option Nat
  | [], acc => some acc
  | c :: cs, acc =>
    match digitValue c with
    | some d => decimalValue cs (10 * acc + d)
    | none => none

/-- The array index that a property name denotes, if any: a decimal numeral
without leading zero, below `2^32 - 1`. -/
def arrayIndex (s : String) : Option Nat :=
  match s.data with
  | [] => none
  | c :: rest =>
    if c = '0' ∧ rest ≠ [] then none
    else
      match decimalValue (c :: rest) 0 with
      | some n => if n < 4294967295 then some n else none
      | none => none

/-- The own properties in the order of `Object.keys`: array indices in
ascending order, then the other names in insertion order. -/
def objectEntries {α : Type} (own : List (String × α)) : List (String × α) :=
  (own.filter fun p => (arrayIndex p.1).isSome).insertionSort
      (fun p q => (arrayIndex p.1).getD 0 ≤ (arrayIndex q.1).getD 0)
    ++ own.filter fun p => (arrayIndex p.1).isNone

/-- The function `each` of lines 37-47 applied to `definitions`: the pairs
that the callback receives.  When `definitions` has an own property `length`
(its value is a definition record, so `is(x.length)` holds), line 40 runs
`Array.prototype.forEach`, for which the record counts as length 0: the
callback is never called.  Otherwise line 42 walks `Object.keys`. -/
def eachDefinition (definitions : Table Definition) : List (String × Definition) :=
  if has definitions "length" then [] else objectEntries definitions.own

/-- The function `contains` of lines 50-52 on a list of resolved ids. -/
def containsId (x : List Val) (id : String) : Bool := decide (Val.str id ∈ x)

/-- The object literal of lines 176-186, written by the first loop of `state`. -/
structure Forward where
  deps : List Val
  reqs : List Val
  init : Bool

/-- A record of the result of `state`: the three fields of the first loop and
`reqd` of line 200. -/
structure Info where
  deps : List Val
  reqs : List Val
  init : Bool
  reqd : List String

/-- The first loop of `state` (lines 174-187) over the pairs that `each`
delivers; an exception of `resolve(id, true)` ends it. -/
def stateForward (r : Registry) :
    List (String × Definition) → Option (Except Thrown (List (String × Forward)))
  | [] => some (.ok [])
  | (id, d) :: rest =>
    match requireDepIds r (.str id) with
    | none => none
    | some (.error e) => some (.error e)
    | some (.ok reqs) =>
      match stateForward r rest with
      | none => none
      | some (.error e) => some (.error e)
      | some (.ok more) => some (.ok ((id, ⟨d.deps, reqs, has r.instances id⟩) :: more))

/-- The inner loop of lines 191-197: the ids `id2` that `each` delivers and
whose `res[id2].reqs` contains `id` (every such `id2` was written by the first
loop). -/
def inverse (entries : List (String × Definition)) (res : List (String × Forward))
    (id : String) : List String :=
  (entries.filter fun p =>
      match ownGet res p.1 with
      | some f => containsId f.reqs id
      | none => false).map Prod.fst

/-- The function `state` of lines 170-204.  `res` is an object keyed by the
ids that `each` delivers; these are distinct own keys of `definitions`, so it
is kept as the list of its entries. -/
def state (r : Registry) : Option (Except Thrown (List (String × Info))) :=
  match stateForward r (eachDefinition r.definitions) with
  | none => none
  | some (.error e) => some (.error e)
  | some (.ok res) =>
    some (.ok (res.map fun p =>
      (p.1, ⟨p.2.deps, p.2.reqs, p.2.init, inverse (eachDefinition r.definitions) res p.1⟩)))

/-- Successful id-list resolutions, one rule per path through `resolve` with
`onlyDepIds` true and through its loop that ends without an exception;
`resolveDepIds_sound` derives it from the functions. -/
inductive IdList (defs : Table Definition) : Task → List Val → Prop where
  | foreign (s : String) (stack : List String) :
      getDef defs s = .foreign → IdList defs (.one (.str s) stack) (uniq [])
  | record (s : String) (stack : List String) (d : Definition) (raw : List Val) :
      getDef defs s = .record d → IdList defs (.each d.deps (stack ++ [s])) raw →
      IdList defs (.one (.str s) stack) (uniq raw)
  | done (stack : List String) : IdList defs (.each [] stack) []
  | next (depId : Val) (rest : List Val) (stack : List String) (ids more : List Val) :
      contains stack depId = false → IdList defs (.one depId stack) ids →
      IdList defs (.each rest stack) more →
      IdList defs (.each (depId :: rest) stack) (ids ++ depId :: more)

/-- Every element of the list has a successful id-list resolution whose members
all stand before it, in `seen` or earlier in the list. -/
def Ordered (defs : Table Definition) : List Val → List Val → Prop
  | _, [] => True
  | seen, e :: rest =>
    (∃ le, IdList defs (.one e []) le ∧ ∀ d ∈ le, d ∈ seen) ∧ Ordered defs (seen ++ [e]) rest

/-- Every entry of an instance table, that of `__proto__` apart, is the result
of an invocation of the factory that the definition table holds for its id. -/
def Built (defs : Table Definition) (own : List (String × Val)) : Prop :=
  ∀ k v, (k, v) ∈ own → k ≠ "__proto__" →
    ∃ d serial args, ownGet defs.own k = some d ∧ v = d.fn serial args

/-- The calls of `resolve` that a unit of work can lead to, in either mode,
each with the stack it is entered with: the call itself; for an id with a
record, the calls made by the loop over its `deps` on the stack extended by the
id (lines 108-126); in the loop, the calls below a dependency that passes the
check of line 118, and the calls of the rest of the loop.  The relation does
not ask that the earlier dependencies returned without an exception nor, in
value mode, that the id has no instance yet, so it covers every call that is
made. -/
inductive Visits (defs : Table Definition) : Task → Val → List String → Prop where
  | here (id : Val) (stack : List String) : Visits defs (.one id stack) id stack
  | deps (s : String) (stack : List String) (d : Definition) (id1 : Val)
      (stack1 : List String) :
      getDef defs s = .record d → Visits defs (.each d.deps (stack ++ [s])) id1 stack1 →
      Visits defs (.one (.str s) stack) id1 stack1
  | head (depId : Val) (rest : List Val) (stack : List String) (id1 : Val)
      (stack1 : List String) :
      contains stack depId = false → Visits defs (.one depId stack) id1 stack1 →
      Visits defs (.each (depId :: rest) stack) id1 stack1
  | tail (depId : Val) (rest : List Val) (stack : List String) (id1 : Val)
      (stack1 : List String) :
      Visits defs (.each rest stack) id1 stack1 →
      Visits defs (.each (depId :: rest) stack) id1 stack1

/-- A resolution stack of pairwise distinct ids, each with a record. -/
def Recorded (defs : Table Definition) (stack : List String) : Prop :=
  stack.Nodup ∧ ∀ s ∈ stack, ∃ d, getDef defs s = .record d

/-! ## Example registries -/

/-- A factory that folds its numeric arguments, in order, into a decimal
number that starts with `tag`. -/
def digits (tag : Int) : Nat → List Val → Val :=
  fun _ args => .num (args.foldl (fun acc v => match v with | .num n => 10 * acc + n | _ => 10 * acc) tag)

/-- A factory that allocates: each invocation returns a new reference. -/
def allocate : Nat → List Val → Val :=
  fun serial _ => .obj serial

/-- The registry after `define('a', [], ..)`, `define('b', ['a'], ..)`,
`define('c', ['a', 'b'], ..)`. -/
def registryABC : Registry :=
  (define (define (define create (.str "a") (.array []) (.function (digits 1))).2
    (.str "b") (.array [.str "a"]) (.function (digits 2))).2
    (.str "c") (.array [.str "a", .str "b"]) (.function (digits 3))).2

/-- The registry after `define('x', ['y'], ..)` and `define('y', ['x'], ..)`. -/
def registryXY : Registry :=
  (define (define create (.str "x") (.array [.str "y"]) (.function (digits 1))).2
    (.str "y") (.array [.str "x"]) (.function (digits 2))).2

/-- The registry after `define('__proto__', [], function () { return {}; })`. -/
def registryProto : Registry :=
  (define create (.str "__proto__") (.array []) (.function allocate)).2

/-- The registry after `define('x', ['__proto__', '__proto__'], ..)`. -/
def registryTwice : Registry :=
  (define create (.str "x") (.array [.str "__proto__", .str "__proto__"]) (.function (digits 1))).2

/-- The registry after `define('a', [], ..)` and `define('p', ['a', 'q'], ..)`,
with `q` never defined. -/
def registryAPQ : Registry :=
  (define (define create (.str "a") (.array []) (.function (digits 1))).2
    (.str "p") (.array [.str "a", .str "q"]) (.function (digits 2))).2

/-- The registry after `define('a', [], ..)` and `define('length', ['a'], ..)`. -/
def registryLength : Registry :=
  (define (define create (.str "a") (.array []) (.function (digits 1))).2
    (.str "length") (.array [.str "a"]) (.function (digits 2))).2

/-- The registry after `define('__proto__', [], function () { return {}; })`
and `define('u', ['__proto__', '__proto__'], ..)`. -/
def registryProtoUser : Registry :=
  (define registryProto (.str "u") (.array [.str "__proto__", .str "__proto__"])
    (.function (digits 1))).2

/-- The registry after `define('a', [], ..)` and `define('__proto__', ['a'], ..)`. -/
def registryProtoDep : Registry :=
  (define (define create (.str "a") (.array []) (.function (digits 1))).2
    (.str "__proto__") (.array [.str "a"]) (.function (digits 2))).2

/-- The result of `state()` on `registryABC`. -/
def stateABC : List (String × Info) :=
  [("a", ⟨[], [], false, ["b", "c"]⟩),
   ("b", ⟨[.str "a"], [.str "a"], false, ["c"]⟩),
   ("c", ⟨[.str "a", .str "b"], [.str "a", .str "b"], false, []⟩)]

/-- The registry after the two-argument `define('v', 7)`. -/
def registryBare : Registry :=
  (define2 create (.str "v") (.value (.num 7))).2

/-- The factory `function (p, q) { return p === q; }`. -/
def identical : Nat → List Val → Val :=
  fun _ args => .bool (decide (args.getD 0 .undefined = args.getD 1 .undefined))

/-- The `deps` of the record that the read `definitions[id]` of line 104
finds, if it finds a record. -/
def declaredDeps (definitions : Table Definition) (id : String) : Option (List Val) :=
  match getDef definitions id with
  | .record d => some d.deps
  | _ => none

/-- The registry after `define('__proto__', [], function () { return {}; })`
and `define('u', ['__proto__', '__proto__'], function (p, q) { return p === q; })`. -/
def registryProtoPair : Registry :=
  (define registryProto (.str "u") (.array [.str "__proto__", .str "__proto__"])
    (.function identical)).2

/-- The registry after `define('__proto__', [], function () { return {}; })`
and `define('u', ['__proto__'], ..)`. -/
def registryProtoCycle : Registry :=
  (define registryProto (.str "u") (.array [.str "__proto__"]) (.function (digits 1))).2

/-- The registry after `define('__proto__', [], 1)`. -/
def registryProtoOne : Registry :=
  (define create (.str "__proto__") (.array []) (.value (.num 1))).2

/-- The registry after `define('__proto__', [], 1)` and
`define('a', ['__proto__'], ..)`. -/
def registryProtoA : Registry :=
  (define registryProtoOne (.str "a") (.array [.str "__proto__"]) (.function (digits 1))).2

/-- The registry after the two-argument `define('__proto__', null)`. -/
def registryNullProto : Registry :=
  (define2 create (.str "__proto__") (.value .null)).2

/-- The registry after `define('a', ['b'], ..)` and `define('b', ['q'], ..)`,
with `q` never defined. -/
def registryABQ : Registry :=
  (define (define create (.str "a") (.array [.str "b"]) (.function (digits 1))).2
    (.str "b") (.array [.str "q"]) (.function (digits 2))).2

/-- The registry after `define('x', ['toString'], ..)`. -/
def registryToStringUser : Registry :=
  (define create (.str "x") (.array [.str "toString"]) (.function (digits 1))).2

/-- Decidable check that every id of `ids` is in the definition table with
all its declared dependencies strings of `ids`. -/
def closedUnder (defs : Table Definition) (ids : List String) : Bool :=
  ids.all fun s =>
    match ownGet defs.own s with
    | some d => d.deps.all fun dep =>
        match dep with
        | .str t => decide (t ∈ ids)
        | _ => false
    | none => false

/-- Decidable check that the ids of `todo`, taken in order after `seen`, are
distinct, are in the definition table, and depend only on earlier ids. -/
def inOrder (defs : Table Definition) : List String → List String → Bool
  | _, [] => true
  | seen, k :: rest =>
    (!decide (k ∈ seen)) &&
    (match ownGet defs.own k with
      | some d => d.deps.all fun dep =>
          match dep with
          | .str t => decide (t ∈ seen)
          | _ => false
      | none => false) &&
    inOrder defs (seen ++ [k]) rest

/-! ## Tables -/

theorem ownGet_ownSet {α : Type} (own : List (String × α)) (id k : String) (v : α) :
    ownGet (ownSet own id v) k = if id = k then some v else ownGet own k := by
  induction own with
  | nil => simp [ownSet, ownGet]
  | cons p rest ih =>
    obtain ⟨k1, w⟩ := p
    by_cases h1 : k1 = id
    · subst h1
      by_cases h2 : k1 = k <;> simp [ownSet, ownGet, h2]
    · by_cases h2 : k1 = k
      · subst h2
        simp [ownSet, ownGet, h1, Ne.symm h1]
      · simp [ownSet, ownGet, h1, h2, ih]

theorem ownGet_isSome_iff {α : Type} (own : List (String × α)) (k : String) :
    (ownGet own k).isSome = true ↔ k ∈ keys own := by
  induction own with
  | nil => simp [ownGet, keys]
  | cons p rest ih =>
    obtain ⟨k1, w⟩ := p
    by_cases h : k1 = k
    · simp [ownGet, keys, h]
    · have ih2 : (ownGet rest k).isSome = true ↔ k ∈ List.map Prod.fst rest := ih
      simp [ownGet, keys, h, Ne.symm h, ih2]

theorem ownGet_eq_none_iff {α : Type} (own : List (String × α)) (k : String) :
    ownGet own k = none ↔ k ∉ keys own := by
  rw [← ownGet_isSome_iff]
  cases ownGet own k <;> simp

theorem ownSet_of_absent {α : Type} (own : List (String × α)) (id : String) (v : α)
    (h : ownGet own id = none) : ownSet own id v = own ++ [(id, v)] := by
  induction own with
  | nil => simp [ownSet]
  | cons p rest ih =>
    obtain ⟨k1, w⟩ := p
    by_cases h1 : k1 = id
    · simp [ownGet, h1] at h
    · simp only [ownGet, h1, if_false] at h
      simp [ownSet, h1, ih h]

theorem has_eq_false_iff {α : Type} (x : Table α) (k : String) :
    has x k = false ↔ ownGet x.own k = none := by
  unfold has
  cases ownGet x.own k <;> simp

theorem has_eq_true_iff {α : Type} (x : Table α) (k : String) :
    has x k = true ↔ k ∈ keys x.own := by
  unfold has
  exact ownGet_isSome_iff x.own k

theorem contains_eq_true_iff (stack : List String) (v : Val) :
    contains stack v = true ↔ ∃ s, v = .str s ∧ s ∈ stack := by
  cases v <;> simp [contains]

theorem contains_str (stack : List String) (s : String) :
    contains stack (.str s) = false ↔ s ∉ stack := by
  simp [contains]

/-! ## The functions follow the rules of `Eval` -/

theorem eachDep_sound (defs : Table Definition)
    (rec : Val → List String → Run → Option (Except Thrown Val × Run))
    (hrec : ∀ id stack run res run1, rec id stack run = some (res, run1) →
      Eval defs (.one id stack) run (.one res) run1)
    (stack : List String) (deps : List Val) :
    ∀ run res run1, eachDep rec stack deps run = some (res, run1) →
      Eval defs (.each deps stack) run (.each res) run1 := by
  induction deps with
  | nil =>
    intro run res run1 h
    simp only [eachDep, Option.some.injEq, Prod.mk.injEq] at h
    obtain ⟨h1, h2⟩ := h
    subst h1; subst h2
    exact Eval.done stack run
  | cons depId rest ih =>
    intro run res run1 h
    simp only [eachDep] at h
    by_cases hc : contains stack depId = true
    · simp only [hc, if_true, Option.some.injEq, Prod.mk.injEq] at h
      obtain ⟨h1, h2⟩ := h
      subst h1; subst h2
      exact Eval.circular depId rest stack run hc
    · have hc2 : contains stack depId = false := by simpa using hc
      simp only [hc2] at h
      cases hr : rec depId stack run with
      | none => simp [hr] at h
      | some out =>
        obtain ⟨r0, runA⟩ := out
        cases r0 with
        | error e =>
          simp only [hr, Bool.false_eq_true, if_false, Option.some.injEq, Prod.mk.injEq] at h
          obtain ⟨h1, h2⟩ := h
          subst h1; subst h2
          exact Eval.headThrow depId rest stack run e runA hc2 (hrec _ _ _ _ _ hr)
        | ok v =>
          simp only [hr, Bool.false_eq_true, if_false] at h
          cases hr2 : eachDep rec stack rest runA with
          | none => simp [hr2] at h
          | some out2 =>
            obtain ⟨r2, runB⟩ := out2
            cases r2 with
            | error e =>
              simp only [hr2, Option.some.injEq, Prod.mk.injEq] at h
              obtain ⟨h1, h2⟩ := h
              subst h1; subst h2
              exact Eval.tailThrow depId rest stack run v runA e runB hc2
                (hrec _ _ _ _ _ hr) (ih _ _ _ hr2)
            | ok vs =>
              simp only [hr2, Option.some.injEq, Prod.mk.injEq] at h
              obtain ⟨h1, h2⟩ := h
              subst h1; subst h2
              exact Eval.next depId rest stack run v runA vs runB hc2
                (hrec _ _ _ _ _ hr) (ih _ _ _ hr2)

theorem resolve_sound (defs : Table Definition) (fuel : Nat) :
    ∀ id stack run res run1, resolve defs fuel id stack run = some (res, run1) →
      Eval defs (.one id stack) run (.one res) run1 := by
  induction fuel with
  | zero => intro id stack run res run1 h; simp [resolve] at h
  | succ n ih =>
    intro id stack run res run1 h
    cases id with
    | str s =>
      simp only [resolve] at h
      cases hg : ownGet run.table.own s with
      | some v =>
        simp only [hg, Option.some.injEq, Prod.mk.injEq] at h
        obtain ⟨h1, h2⟩ := h
        subst h1; subst h2
        exact Eval.memo s stack run v hg
      | none =>
        simp only [hg] at h
        cases hd : getDef defs s with
        | missing =>
          simp only [hd, Option.some.injEq, Prod.mk.injEq] at h
          obtain ⟨h1, h2⟩ := h
          subst h1; subst h2
          exact Eval.undefinedId s stack run hg hd
        | foreign =>
          simp only [hd, Option.some.injEq, Prod.mk.injEq] at h
          obtain ⟨h1, h2⟩ := h
          subst h1; subst h2
          exact Eval.foreign s stack run hg hd
        | record d =>
          simp only [hd] at h
          cases he : eachDep (resolve defs n) (stack ++ [s]) d.deps run with
          | none => simp [he] at h
          | some out =>
            obtain ⟨r0, runA⟩ := out
            have hsub := eachDep_sound defs (resolve defs n) ih (stack ++ [s]) d.deps _ _ _ he
            cases r0 with
            | error e =>
              simp only [he, Option.some.injEq, Prod.mk.injEq] at h
              obtain ⟨h1, h2⟩ := h
              subst h1; subst h2
              exact Eval.depsThrow s stack run d e runA hg hd hsub
            | ok vs =>
              simp only [he, Option.some.injEq, Prod.mk.injEq] at h
              obtain ⟨h1, h2⟩ := h
              subst h1; subst h2
              exact Eval.build s stack run d vs runA hg hd hsub
    | undefined | null | bool _ | num _ | obj _ =>
      simp only [resolve, Option.some.injEq, Prod.mk.injEq] at h
      obtain ⟨h1, h2⟩ := h
      subst h1; subst h2
      exact Eval.invalidId _ stack run (by intro s hs; cases hs)

/-! ## The fuel of `require` is never exhausted -/

theorem getDef_record_mem (defs : Table Definition) (s : String) (d : Definition)
    (h : getDef defs s = .record d) : s ∈ "__proto__" :: keys defs.own := by
  unfold getDef at h
  cases hg : ownGet defs.own s with
  | some d1 =>
    have : (ownGet defs.own s).isSome = true := by simp [hg]
    exact List.mem_cons_of_mem _ ((ownGet_isSome_iff _ _).1 this)
  | none =>
    simp only [hg] at h
    cases hp : defs.proto with
    | none =>
      simp only [hp] at h
      split at h <;> cases h
    | some p =>
      simp only [hp] at h
      by_cases h1 : s = "__proto__"
      · simp [h1]
      · simp only [h1, if_false] at h
        split at h
        · split at h <;> cases h
        · split at h
          · cases h
          · split at h <;> cases h

theorem getDef_of_own (defs : Table Definition) (s : String) (d : Definition)
    (h : ownGet defs.own s = some d) : getDef defs s = .record d := by
  simp [getDef, h]

theorem getDef_record_ids (defs : Table Definition) (s : String) (d : Definition)
    (h : getDef defs s = .record d) : s ∈ recordIds defs := by
  unfold recordIds
  cases hp : defs.proto with
  | some p =>
    have h1 := getDef_record_mem defs s d h
    simpa using h1
  | none =>
    simp only [List.nil_append]
    cases hg : ownGet defs.own s with
    | some d1 =>
      have : (ownGet defs.own s).isSome = true := by simp [hg]
      exact (ownGet_isSome_iff _ _).1 this
    | none =>
      unfold getDef at h
      simp only [hg, hp] at h
      split at h <;> cases h

theorem definedCount_le (defs : Table Definition) : definedCount defs + 1 ≤ fuelFor defs := by
  unfold definedCount recordIds fuelFor
  cases defs.proto <;> simp [keys]

theorem eachDep_isSome (rec : Val → List String → Run → Option (Except Thrown Val × Run))
    (stack : List String)
    (hrec : ∀ id run, contains stack id = false → ∃ out, rec id stack run = some out)
    (deps : List Val) : ∀ run, ∃ out, eachDep rec stack deps run = some out := by
  induction deps with
  | nil => intro run; exact ⟨_, rfl⟩
  | cons depId rest ih =>
    intro run
    simp only [eachDep]
    by_cases hc : contains stack depId = true
    · simp [hc]
    · have hc2 : contains stack depId = false := by simpa using hc
      obtain ⟨out, ho⟩ := hrec depId run hc2
      obtain ⟨r0, runA⟩ := out
      simp only [hc2, Bool.false_eq_true, if_false, ho]
      cases r0 with
      | error e => exact ⟨_, rfl⟩
      | ok v =>
        obtain ⟨out2, ho2⟩ := ih runA
        obtain ⟨r2, runB⟩ := out2
        simp only [ho2]
        cases r2 with
        | error e => exact ⟨_, rfl⟩
        | ok vs => exact ⟨_, rfl⟩

theorem resolve_isSome (defs : Table Definition) (fuel : Nat) :
    ∀ id stack run, stack.Nodup → (∀ t ∈ stack, t ∈ recordIds defs) →
      contains stack id = false → definedCount defs + 1 ≤ fuel + stack.length →
      ∃ out, resolve defs fuel id stack run = some out := by
  induction fuel with
  | zero =>
    intro id stack run hnd hsub _ hlen
    have h1 : stack.length ≤ definedCount defs :=
      (List.subperm_of_subset hnd hsub).length_le
    omega
  | succ n ih =>
    intro id stack run hnd hsub hc hlen
    cases id with
    | str s =>
      simp only [resolve]
      cases hg : ownGet run.table.own s with
      | some v => exact ⟨_, rfl⟩
      | none =>
        simp only []
        cases hd : getDef defs s with
        | missing => exact ⟨_, rfl⟩
        | foreign => exact ⟨_, rfl⟩
        | record d =>
          simp only []
          have hs : s ∉ stack := (contains_str stack s).1 hc
          have hnd2 : (stack ++ [s]).Nodup := by
            rw [List.nodup_append]
            refine ⟨hnd, List.nodup_singleton s, ?_⟩
            intro a ha hb
            simp at hb
            subst hb
            exact hs ha
          have hsub2 : ∀ t ∈ stack ++ [s], t ∈ recordIds defs := by
            intro t ht
            rcases List.mem_append.1 ht with h1 | h1
            · exact hsub t h1
            · simp at h1
              subst h1
              exact getDef_record_ids defs t d hd
          have hlen2 : definedCount defs + 1 ≤ n + (stack ++ [s]).length := by
            simp
            omega
          obtain ⟨out, ho⟩ := eachDep_isSome (resolve defs n) (stack ++ [s])
            (fun id2 run2 hc2 => ih id2 (stack ++ [s]) run2 hnd2 hsub2 hc2 hlen2) d.deps run
          obtain ⟨r0, runA⟩ := out
          rw [ho]
          cases r0 with
          | error e => exact ⟨_, rfl⟩
          | ok vs => exact ⟨_, rfl⟩
    | undefined | null | bool _ | num _ | obj _ => exact ⟨_, rfl⟩

theorem require_isSome (r : Registry) (id : Val) (fakes : Option (Table Val)) :
    ∃ out, require r id fakes = some out := by
  cases fakes with
  | none =>
    obtain ⟨out, ho⟩ := resolve_isSome r.definitions (fuelFor r.definitions) id []
      ⟨r.instances, r.calls⟩ List.nodup_nil (by simp) (by cases id <;> simp [contains])
      (by simpa using definedCount_le r.definitions)
    obtain ⟨res, run⟩ := out
    refine ⟨⟨res, { r with instances := run.table, calls := run.calls }, none⟩, ?_⟩
    simp only [require, ho]
  | some f =>
    obtain ⟨out, ho⟩ := resolve_isSome r.definitions (fuelFor r.definitions) id []
      ⟨f, r.calls⟩ List.nodup_nil (by simp) (by cases id <;> simp [contains])
      (by simpa using definedCount_le r.definitions)
    obtain ⟨res, run⟩ := out
    refine ⟨⟨res, { r with calls := run.calls }, some run.table⟩, ?_⟩
    simp only [require, ho]

theorem require_eval (r : Registry) (id : Val) (out : Outcome)
    (h : require r id none = some out) :
    ∃ run1, Eval r.definitions (.one id []) ⟨r.instances, r.calls⟩ (.one out.result) run1 ∧
      out.registry = { r with instances := run1.table, calls := run1.calls } ∧
      out.fakes = none := by
  simp only [require] at h
  cases hr : resolve r.definitions (fuelFor r.definitions) id [] ⟨r.instances, r.calls⟩ with
  | none => simp [hr] at h
  | some o =>
    obtain ⟨res, run1⟩ := o
    simp only [hr, Option.some.injEq] at h
    subst h
    exact ⟨run1, resolve_sound _ _ _ _ _ _ _ hr, rfl, rfl⟩

theorem require_fakes_eval (r : Registry) (id : Val) (f : Table Val) (out : Outcome)
    (h : require r id (some f) = some out) :
    ∃ run1, Eval r.definitions (.one id []) ⟨f, r.calls⟩ (.one out.result) run1 ∧
      out.registry = { r with calls := run1.calls } ∧ out.fakes = some run1.table := by
  simp only [require] at h
  cases hr : resolve r.definitions (fuelFor r.definitions) id [] ⟨f, r.calls⟩ with
  | none => simp [hr] at h
  | some o =>
    obtain ⟨res, run1⟩ := o
    simp only [hr, Option.some.injEq] at h
    subst h
    exact ⟨run1, resolve_sound _ _ _ _ _ _ _ hr, rfl, rfl⟩

/-! ## Rule induction with one motive for `resolve` and one for the loop -/

theorem Eval.induct2 {defs : Table Definition}
    (P : Val → List String → Run → Except Thrown Val → Run → Prop)
    (Q : List Val → List String → Run → Except Thrown (List Val) → Run → Prop)
    (invalidId : ∀ id stack run, (∀ s, id ≠ .str s) →
      P id stack run (.error ⟨.invalidId id, stack⟩) run)
    (memo : ∀ s stack run v, ownGet run.table.own s = some v →
      P (.str s) stack run (.ok v) run)
    (undefinedId : ∀ s stack run, ownGet run.table.own s = none → getDef defs s = .missing →
      P (.str s) stack run (.error ⟨.undefinedId s, stack⟩) run)
    (foreign : ∀ s stack run, ownGet run.table.own s = none → getDef defs s = .foreign →
      P (.str s) stack run (.error ⟨.typeError, stack ++ [s]⟩) run)
    (depsThrow : ∀ s stack run d e run1, ownGet run.table.own s = none →
      getDef defs s = .record d →
      Eval defs (.each d.deps (stack ++ [s])) run (.each (.error e)) run1 →
      Q d.deps (stack ++ [s]) run (.error e) run1 →
      P (.str s) stack run (.error e) run1)
    (build : ∀ s stack run d vs run1, ownGet run.table.own s = none →
      getDef defs s = .record d →
      Eval defs (.each d.deps (stack ++ [s])) run (.each (.ok vs)) run1 →
      Q d.deps (stack ++ [s]) run (.ok vs) run1 →
      P (.str s) stack run (.ok (d.fn run1.calls.length vs))
        ⟨Table.set Val.isObjectOrNull Val.isNull run1.table s (d.fn run1.calls.length vs),
          run1.calls ++ [s]⟩)
    (done : ∀ stack run, Q [] stack run (.ok []) run)
    (circular : ∀ depId rest stack run, contains stack depId = true →
      Q (depId :: rest) stack run (.error ⟨.circularDependency depId stack, stack⟩) run)
    (headThrow : ∀ depId rest stack run e run1, contains stack depId = false →
      Eval defs (.one depId stack) run (.one (.error e)) run1 →
      P depId stack run (.error e) run1 →
      Q (depId :: rest) stack run (.error e) run1)
    (tailThrow : ∀ depId rest stack run v run1 e run2, contains stack depId = false →
      Eval defs (.one depId stack) run (.one (.ok v)) run1 →
      Eval defs (.each rest stack) run1 (.each (.error e)) run2 →
      P depId stack run (.ok v) run1 → Q rest stack run1 (.error e) run2 →
      Q (depId :: rest) stack run (.error e) run2)
    (next : ∀ depId rest stack run v run1 vs run2, contains stack depId = false →
      Eval defs (.one depId stack) run (.one (.ok v)) run1 →
      Eval defs (.each rest stack) run1 (.each (.ok vs)) run2 →
      P depId stack run (.ok v) run1 → Q rest stack run1 (.ok vs) run2 →
      Q (depId :: rest) stack run (.ok (v :: vs)) run2)
    (t : Task) (run : Run) (res : Res) (run1 : Run) (h : Eval defs t run res run1) :
    (∀ id stack r, t = .one id stack → res = .one r → P id stack run r run1) ∧
    (∀ deps stack r, t = .each deps stack → res = .each r → Q deps stack run r run1) := by
  induction h with
  | invalidId id stack run hid =>
    refine ⟨fun _ _ _ h1 h2 => ?_, fun _ _ _ h1 _ => by cases h1⟩
    cases h1; cases h2
    exact invalidId id stack run hid
  | memo s stack run v hg =>
    refine ⟨fun _ _ _ h1 h2 => ?_, fun _ _ _ h1 _ => by cases h1⟩
    cases h1; cases h2
    exact memo s stack run v hg
  | undefinedId s stack run hg hd =>
    refine ⟨fun _ _ _ h1 h2 => ?_, fun _ _ _ h1 _ => by cases h1⟩
    cases h1; cases h2
    exact undefinedId s stack run hg hd
  | foreign s stack run hg hd =>
    refine ⟨fun _ _ _ h1 h2 => ?_, fun _ _ _ h1 _ => by cases h1⟩
    cases h1; cases h2
    exact foreign s stack run hg hd
  | depsThrow s stack run d e run1 hg hd hsub ih =>
    refine ⟨fun _ _ _ h1 h2 => ?_, fun _ _ _ h1 _ => by cases h1⟩
    cases h1; cases h2
    exact depsThrow s stack run d e run1 hg hd hsub (ih.2 _ _ _ rfl rfl)
  | build s stack run d vs run1 hg hd hsub ih =>
    refine ⟨fun _ _ _ h1 h2 => ?_, fun _ _ _ h1 _ => by cases h1⟩
    cases h1; cases h2
    exact build s stack run d vs run1 hg hd hsub (ih.2 _ _ _ rfl rfl)
  | done stack run =>
    refine ⟨fun _ _ _ h1 _ => (by cases h1), fun _ _ _ h1 h2 => ?_⟩
    cases h1; cases h2
    exact done stack run
  | circular depId rest stack run hc =>
    refine ⟨fun _ _ _ h1 _ => (by cases h1), fun _ _ _ h1 h2 => ?_⟩
    cases h1; cases h2
    exact circular depId rest stack run hc
  | headThrow depId rest stack run e run1 hc hsub ih =>
    refine ⟨fun _ _ _ h1 _ => (by cases h1), fun _ _ _ h1 h2 => ?_⟩
    cases h1; cases h2
    exact headThrow depId rest stack run e run1 hc hsub (ih.1 _ _ _ rfl rfl)
  | tailThrow depId rest stack run v run1 e run2 hc hsub1 hsub2 ih1 ih2 =>
    refine ⟨fun _ _ _ h1 _ => (by cases h1), fun _ _ _ h1 h2 => ?_⟩
    cases h1; cases h2
    exact tailThrow depId rest stack run v run1 e run2 hc hsub1 hsub2
      (ih1.1 _ _ _ rfl rfl) (ih2.2 _ _ _ rfl rfl)
  | next depId rest stack run v run1 vs run2 hc hsub1 hsub2 ih1 ih2 =>
    refine ⟨fun _ _ _ h1 _ => (by cases h1), fun _ _ _ h1 h2 => ?_⟩
    cases h1; cases h2
    exact next depId rest stack run v run1 vs run2 hc hsub1 hsub2
      (ih1.1 _ _ _ rfl rfl) (ih2.2 _ _ _ rfl rfl)

/-! ## Frame: ids on the stack stay out of the table, entries are kept -/

theorem viaSetter_eq_true {α : Type} (isNull : α → Bool) (x : Table α) (id : String)
    (h : Table.viaSetter isNull x id = true) : has x id = false ∧ id = "__proto__" := by
  unfold Table.viaSetter at h
  simp only [Bool.and_eq_true, Bool.not_eq_true', decide_eq_true_eq] at h
  exact ⟨h.1.1, h.1.2⟩

theorem viaSetter_of_ne {α : Type} (isNull : α → Bool) (x : Table α) (id : String)
    (h : id ≠ "__proto__") : Table.viaSetter isNull x id = false := by
  simp [Table.viaSetter, h]

theorem viaSetter_never_null {α : Type} (x : Table α) (id : String) :
    Table.viaSetter (fun _ => false) x id = (!has x id && decide (id = "__proto__")) := by
  unfold Table.viaSetter
  cases x.proto <;> simp

theorem ownGet_set {α : Type} (accepts isNull : α → Bool) (x : Table α) (id k : String)
    (v : α) :
    ownGet (Table.set accepts isNull x id v).own k =
      if Table.viaSetter isNull x id = true then ownGet x.own k
      else if id = k then some v else ownGet x.own k := by
  unfold Table.set
  by_cases h : Table.viaSetter isNull x id = true
  · rw [if_pos h, if_pos h]
    by_cases h2 : accepts v = true
    · rw [if_pos h2]
    · rw [if_neg h2]
  · rw [if_neg h, if_neg h]
    exact ownGet_ownSet x.own id k v

theorem ownGet_set_of_ne {α : Type} (accepts isNull : α → Bool) (x : Table α)
    (id k : String) (v : α) (h : id ≠ k) :
    ownGet (Table.set accepts isNull x id v).own k = ownGet x.own k := by
  rw [ownGet_set]
  simp [h]

theorem ownGet_set_self {α : Type} (accepts isNull : α → Bool) (x : Table α)
    (id : String) (v : α) (h : id ≠ "__proto__") :
    ownGet (Table.set accepts isNull x id v).own id = some v := by
  rw [ownGet_set, viaSetter_of_ne _ _ _ h]
  simp

theorem eval_frame {defs : Table Definition} (t : Task) (run : Run) (res : Res) (run1 : Run)
    (h : Eval defs t run res run1) :
    (∀ id stack r, t = .one id stack → res = .one r →
      contains stack id = false → (∀ t ∈ stack, ownGet run.table.own t = none) →
      (∀ t ∈ stack, ownGet run1.table.own t = none) ∧
      (∀ k v, ownGet run.table.own k = some v → ownGet run1.table.own k = some v) ∧
      (∀ e, r = .error e → (∀ t ∈ e.stack, ownGet run1.table.own t = none) ∧
        (∀ s, id = .str s → ownGet run1.table.own s = none))) ∧
    (∀ deps stack r, t = .each deps stack → res = .each r →
      (∀ t ∈ stack, ownGet run.table.own t = none) →
      (∀ t ∈ stack, ownGet run1.table.own t = none) ∧
      (∀ k v, ownGet run.table.own k = some v → ownGet run1.table.own k = some v) ∧
      (∀ e, r = .error e → ∀ t ∈ e.stack, ownGet run1.table.own t = none)) := by
  refine Eval.induct2
    (fun id stack run r run1 =>
      contains stack id = false → (∀ t ∈ stack, ownGet run.table.own t = none) →
      (∀ t ∈ stack, ownGet run1.table.own t = none) ∧
      (∀ k v, ownGet run.table.own k = some v → ownGet run1.table.own k = some v) ∧
      (∀ e, r = .error e → (∀ t ∈ e.stack, ownGet run1.table.own t = none) ∧
        (∀ s, id = .str s → ownGet run1.table.own s = none)))
    (fun _ stack run r run1 =>
      (∀ t ∈ stack, ownGet run.table.own t = none) →
      (∀ t ∈ stack, ownGet run1.table.own t = none) ∧
      (∀ k v, ownGet run.table.own k = some v → ownGet run1.table.own k = some v) ∧
      (∀ e, r = .error e → ∀ t ∈ e.stack, ownGet run1.table.own t = none))
    ?_ ?_ ?_ ?_ ?_ ?_ ?_ ?_ ?_ ?_ ?_ t run res run1 h
  · -- invalidId
    intro id stack run hid _ hst
    refine ⟨hst, fun _ _ hk => hk, ?_⟩
    intro e he
    cases he
    exact ⟨hst, fun s hs => absurd hs (hid s)⟩
  · -- memo
    intro s stack run v hg _ hst
    exact ⟨hst, fun _ _ hk => hk, fun e he => by cases he⟩
  · -- undefinedId
    intro s stack run hg hd _ hst
    refine ⟨hst, fun _ _ hk => hk, ?_⟩
    intro e he
    cases he
    refine ⟨hst, ?_⟩
    intro s2 hs2
    cases hs2
    exact hg
  · -- foreign
    intro s stack run hg hd _ hst
    refine ⟨hst, fun _ _ hk => hk, ?_⟩
    intro e he
    cases he
    have hall : ∀ t ∈ stack ++ [s], ownGet run.table.own t = none := by
      intro t ht
      rcases List.mem_append.1 ht with h1 | h1
      · exact hst t h1
      · simp at h1
        subst h1
        exact hg
    refine ⟨hall, ?_⟩
    intro s2 hs2
    cases hs2
    exact hg
  · -- depsThrow
    intro s stack run d e run1 hg hd _ ih _ hst
    have hall : ∀ t ∈ stack ++ [s], ownGet run.table.own t = none := by
      intro t ht
      rcases List.mem_append.1 ht with h1 | h1
      · exact hst t h1
      · simp at h1
        subst h1
        exact hg
    obtain ⟨i1, i2, i3⟩ := ih hall
    refine ⟨fun t ht => i1 t (List.mem_append_left _ ht), i2, ?_⟩
    intro e2 he2
    cases he2
    refine ⟨i3 _ rfl, ?_⟩
    intro s2 hs2
    cases hs2
    exact i1 s (by simp)
  · -- build
    intro s stack run d vs run1 hg hd _ ih hc hst
    have hs : s ∉ stack := (contains_str stack s).1 hc
    have hall : ∀ t ∈ stack ++ [s], ownGet run.table.own t = none := by
      intro t ht
      rcases List.mem_append.1 ht with h1 | h1
      · exact hst t h1
      · simp at h1
        subst h1
        exact hg
    obtain ⟨i1, i2, _⟩ := ih hall
    refine ⟨?_, ?_, fun e he => by cases he⟩
    · intro t ht
      have hne : s ≠ t := fun h => hs (h ▸ ht)
      simp only []
      rw [ownGet_set_of_ne _ _ _ _ _ _ hne]
      exact i1 t (List.mem_append_left _ ht)
    · intro k v hk
      have h1 := i2 k v hk
      have hne : s ≠ k := by
        intro h
        subst h
        rw [i1 s (by simp)] at h1
        cases h1
      simp only []
      rw [ownGet_set_of_ne _ _ _ _ _ _ hne]
      exact h1
  · -- done
    intro stack run hst
    exact ⟨hst, fun _ _ hk => hk, fun e he => by cases he⟩
  · -- circular
    intro depId rest stack run hc hst
    refine ⟨hst, fun _ _ hk => hk, ?_⟩
    intro e he
    cases he
    exact hst
  · -- headThrow
    intro depId rest stack run e run1 hc _ ih hst
    obtain ⟨i1, i2, i3⟩ := ih hc hst
    refine ⟨i1, i2, ?_⟩
    intro e2 he2
    cases he2
    exact (i3 _ rfl).1
  · -- tailThrow
    intro depId rest stack run v run1 e run2 hc _ _ ih1 ih2 hst
    obtain ⟨i1, i2, _⟩ := ih1 hc hst
    obtain ⟨j1, j2, j3⟩ := ih2 i1
    exact ⟨j1, fun k v hk => j2 k v (i2 k v hk), j3⟩
  · -- next
    intro depId rest stack run v run1 vs run2 hc _ _ ih1 ih2 hst
    obtain ⟨i1, i2, _⟩ := ih1 hc hst
    obtain ⟨j1, j2, _⟩ := ih2 i1
    exact ⟨j1, fun k v hk => j2 k v (i2 k v hk), fun e he => by cases he⟩

/-! ## What a successful resolution leaves in the table -/

theorem forall₂_exists_of_mem {α β : Type} {R : α → β → Prop} {l1 : List α} {l2 : List β}
    (h : List.Forall₂ R l1 l2) (a : α) (ha : a ∈ l1) : ∃ b, b ∈ l2 ∧ R a b := by
  induction h with
  | nil => cases ha
  | cons hab _ ih =>
    rcases List.mem_cons.1 ha with h1 | h1
    · subst h1
      exact ⟨_, List.mem_cons_self _ _, hab⟩
    · obtain ⟨b, hb, hr⟩ := ih h1
      exact ⟨b, List.mem_cons_of_mem _ hb, hr⟩

theorem eval_ok_stored {defs : Table Definition} (id : Val) (stack : List String) (run : Run)
    (v : Val) (run1 : Run) (h : Eval defs (.one id stack) run (.one (.ok v)) run1) :
    ∃ s, id = .str s ∧ (ownGet run1.table.own s = some v ∨ s = "__proto__") := by
  cases h with
  | memo s _ _ _ hg => exact ⟨s, rfl, Or.inl hg⟩
  | build s _ _ d vs run0 hg hd hsub =>
    refine ⟨s, rfl, ?_⟩
    by_cases hp : s = "__proto__"
    · exact Or.inr hp
    · left
      simp only []
      exact ownGet_set_self _ _ _ _ _ hp

theorem eval_each_stored {defs : Table Definition} (t : Task) (run : Run) (res : Res)
    (run1 : Run) (h : Eval defs t run res run1) :
    ∀ deps stack vs, t = .each deps stack → res = .each (.ok vs) →
      (∀ t ∈ stack, ownGet run.table.own t = none) →
      List.Forall₂ (fun dep v => ∃ s, dep = .str s ∧
        (ownGet run1.table.own s = some v ∨ s = "__proto__")) deps vs := by
  have key := @Eval.induct2 defs
    (fun _ _ _ _ _ => True)
    (fun deps stack run r run1 => ∀ vs, r = .ok vs →
      (∀ t ∈ stack, ownGet run.table.own t = none) →
      List.Forall₂ (fun dep v => ∃ s, dep = .str s ∧
        (ownGet run1.table.own s = some v ∨ s = "__proto__")) deps vs)
    (fun _ _ _ _ => trivial) (fun _ _ _ _ _ => trivial) (fun _ _ _ _ _ => trivial)
    (fun _ _ _ _ _ => trivial) (fun _ _ _ _ _ _ _ _ _ _ => trivial)
    (fun _ _ _ _ _ _ _ _ _ _ => trivial)
    ?_ ?_ ?_ ?_ ?_ t run res run1 h
  · intro deps stack vs h1 h2 hst
    exact key.2 deps stack (.ok vs) h1 h2 vs rfl hst
  · intro stack run vs hvs _
    cases hvs
    exact List.Forall₂.nil
  · intro depId rest stack run _ vs hvs
    cases hvs
  · intro depId rest stack run e run1 _ _ _ vs hvs
    cases hvs
  · intro depId rest stack run v run1 e run2 _ _ _ _ _ vs hvs
    cases hvs
  · intro depId rest stack run v run1 vs run2 hc hsub1 hsub2 _ ih ws hws hst
    cases hws
    obtain ⟨s, hs, hstored⟩ := eval_ok_stored _ _ _ _ _ hsub1
    have f1 := (eval_frame _ _ _ _ hsub1).1 depId stack (.ok v) rfl rfl hc hst
    have f2 := (eval_frame _ _ _ _ hsub2).2 rest stack (.ok vs) rfl rfl f1.1
    refine List.Forall₂.cons ⟨s, hs, ?_⟩ (ih vs rfl f1.1)
    rcases hstored with h1 | h1
    · exact Or.inl (f2.2.1 s v h1)
    · exact Or.inr h1

theorem keys_append_single {α : Type} (own : List (String × α)) (k : String) (v : α) :
    keys (own ++ [(k, v)]) = keys own ++ [k] := by
  simp [keys]

theorem getDef_record_own (defs : Table Definition) (s : String) (d : Definition)
    (h : getDef defs s = .record d) (hp : s ≠ "__proto__") : ownGet defs.own s = some d := by
  unfold getDef at h
  cases hg : ownGet defs.own s with
  | some d1 =>
    simp only [hg] at h
    cases h
    rfl
  | none =>
    simp only [hg] at h
    cases hq : defs.proto with
    | none =>
      simp only [hq] at h
      split at h <;> cases h
    | some p =>
      simp only [hq, hp, if_false] at h
      split at h
      · split at h <;> cases h
      · split at h
        · cases h
        · split at h <;> cases h

/-! ## The instance table stays settled -/

theorem Settled.mono {defs defs1 : Table Definition} {ks : List String}
    (hmono : ∀ k d, ownGet defs.own k = some d → ownGet defs1.own k = some d)
    (h : Settled defs ks) : Settled defs1 ks := by
  induction h with
  | nil => exact Settled.nil
  | snoc ks k d _ hk hd hdeps ih => exact Settled.snoc ks k d ih hk (hmono k d hd) hdeps
  | proto ks _ ih => exact Settled.proto ks ih

theorem eval_settled {defs : Table Definition} (t : Task) (run : Run) (res : Res) (run1 : Run)
    (h : Eval defs t run res run1) :
    (∀ id stack r, t = .one id stack → res = .one r →
      contains stack id = false → (∀ t ∈ stack, ownGet run.table.own t = none) →
      Settled defs (keys run.table.own) → Settled defs (keys run1.table.own)) ∧
    (∀ deps stack r, t = .each deps stack → res = .each r →
      (∀ t ∈ stack, ownGet run.table.own t = none) →
      Settled defs (keys run.table.own) → Settled defs (keys run1.table.own)) := by
  refine Eval.induct2
    (fun id stack run _ run1 =>
      contains stack id = false → (∀ t ∈ stack, ownGet run.table.own t = none) →
      Settled defs (keys run.table.own) → Settled defs (keys run1.table.own))
    (fun _ stack run _ run1 =>
      (∀ t ∈ stack, ownGet run.table.own t = none) →
      Settled defs (keys run.table.own) → Settled defs (keys run1.table.own))
    ?_ ?_ ?_ ?_ ?_ ?_ ?_ ?_ ?_ ?_ ?_ t run res run1 h
  · intro id stack run _ _ _ hS; exact hS
  · intro s stack run v _ _ _ hS; exact hS
  · intro s stack run _ _ _ _ hS; exact hS
  · intro s stack run _ _ _ _ hS; exact hS
  · -- depsThrow
    intro s stack run d e run1 hg hd _ ih _ hst hS
    refine ih ?_ hS
    intro t ht
    rcases List.mem_append.1 ht with h1 | h1
    · exact hst t h1
    · simp at h1
      subst h1
      exact hg
  · -- build
    intro s stack run d vs run1 hg hd hsub ih _ hst hS
    have hall : ∀ t ∈ stack ++ [s], ownGet run.table.own t = none := by
      intro t ht
      rcases List.mem_append.1 ht with h1 | h1
      · exact hst t h1
      · simp at h1
        subst h1
        exact hg
    have hS1 := ih hall hS
    have hfr := (eval_frame _ _ _ _ hsub).2 d.deps (stack ++ [s]) (.ok vs) rfl rfl hall
    have habs : ownGet run1.table.own s = none := hfr.1 s (by simp)
    have hdeps := eval_each_stored _ _ _ _ hsub d.deps (stack ++ [s]) vs rfl rfl hall
    simp only []
    by_cases hv : Table.viaSetter Val.isNull run1.table s = true
    · unfold Table.set
      rw [if_pos hv]
      split
      · exact hS1
      · exact hS1
    · unfold Table.set
      rw [if_neg hv]
      simp only []
      rw [ownSet_of_absent _ _ _ habs, keys_append_single]
      by_cases hp : s = "__proto__"
      · rw [hp]
        exact Settled.proto _ hS1
      · refine Settled.snoc _ s d hS1 ((ownGet_eq_none_iff _ _).1 habs)
          (getDef_record_own defs s d hd hp) ?_
        intro dep hdep
        obtain ⟨v, _, s2, hs2, hstored⟩ := forall₂_exists_of_mem hdeps dep hdep
        refine ⟨s2, hs2, ?_⟩
        rcases hstored with h1 | h1
        · left
          apply (ownGet_isSome_iff _ _).1
          simp [h1]
        · exact Or.inr h1
  · intro stack run _ hS; exact hS
  · intro depId rest stack run _ _ hS; exact hS
  · intro depId rest stack run e run1 hc _ ih hst hS
    exact ih hc hst hS
  · intro depId rest stack run v run1 e run2 hc hsub1 _ ih1 ih2 hst hS
    have f1 := (eval_frame _ _ _ _ hsub1).1 depId stack (.ok v) rfl rfl hc hst
    exact ih2 f1.1 (ih1 hc hst hS)
  · intro depId rest stack run v run1 vs run2 hc hsub1 _ ih1 ih2 hst hS
    have f1 := (eval_frame _ _ _ _ hsub1).1 depId stack (.ok v) rfl rfl hc hst
    exact ih2 f1.1 (ih1 hc hst hS)

/-! ## Invariant of reachable registries -/

theorem define_definitions (r : Registry) (id : Val) (deps : DepsArg) (defn : DefArg) :
    (define r id deps defn).2.instances = r.instances ∧
    (define r id deps defn).2.calls = r.calls ∧
    (keys (define r id deps defn).2.definitions.own = keys r.definitions.own ∨
      ∃ s, s ≠ "__proto__" ∧ has r.definitions s = false ∧
        keys (define r id deps defn).2.definitions.own = keys r.definitions.own ++ [s]) ∧
    (∀ k d, ownGet r.definitions.own k = some d →
      ownGet (define r id deps defn).2.definitions.own k = some d) := by
  cases id with
  | str s =>
    unfold define
    simp only []
    by_cases hh : has r.definitions s = true
    · rw [if_pos hh]
      exact ⟨rfl, rfl, Or.inl rfl, fun _ _ hk => hk⟩
    · rw [if_neg hh]
      have hh2 : has r.definitions s = false := by simpa using hh
      have habs : ownGet r.definitions.own s = none := (has_eq_false_iff _ _).1 hh2
      cases deps with
      | other v => exact ⟨rfl, rfl, Or.inl rfl, fun _ _ hk => hk⟩
      | array ds =>
        simp only []
        refine ⟨by trivial, by trivial, ?_, ?_⟩
        · by_cases hp : s = "__proto__"
          · left
            have hv : Table.viaSetter (fun _ => false) r.definitions s = true := by
              rw [viaSetter_never_null, hh2]
              simp [hp]
            unfold Table.set
            rw [if_pos hv]
            simp
          · right
            refine ⟨s, hp, hh2, ?_⟩
            unfold Table.set
            rw [if_neg (fun hc => hp (viaSetter_eq_true _ _ _ hc).2)]
            simp only []
            rw [ownSet_of_absent _ _ _ habs, keys_append_single]
        · intro k d hk
          have hne : s ≠ k := by
            intro h
            subst h
            rw [habs] at hk
            cases hk
          rw [ownGet_set_of_ne _ _ _ _ _ _ hne]
          exact hk
  | undefined | null | bool _ | num _ | obj _ =>
    exact ⟨rfl, rfl, Or.inl rfl, fun _ _ hk => hk⟩

theorem reachable_inv (r : Registry) (h : Reachable r) :
    "__proto__" ∉ keys r.definitions.own ∧ Settled r.definitions (keys r.instances.own) := by
  induction h with
  | create => exact ⟨by simp [create, Table.empty, keys], Settled.nil⟩
  | define r id deps defn _ ih =>
    obtain ⟨h1, _, h3, h4⟩ := define_definitions r id deps defn
    constructor
    · rcases h3 with h3 | ⟨s, hs, _, h3⟩
      · rw [h3]; exact ih.1
      · rw [h3]
        intro hm
        rcases List.mem_append.1 hm with hm | hm
        · exact ih.1 hm
        · simp at hm
          exact hs hm.symm
    · rw [h1]
      exact Settled.mono h4 ih.2
  | require r id out _ hreq ih =>
    obtain ⟨run1, hev, hreg, _⟩ := require_eval r id out hreq
    rw [hreg]
    refine ⟨ih.1, ?_⟩
    exact (eval_settled _ _ _ _ hev).1 id [] out.result rfl rfl
      (by cases id <;> simp [contains]) (by simp) ih.2

/-! ## Dependency chains -/

theorem fullyDefined_of_reaches {defs : Table Definition} {a b : Val}
    (h : FullyDefined defs a) (hab : Reaches defs a b) : FullyDefined defs b :=
  fun y hy => h y (Relation.ReflTransGen.trans hab hy)

theorem fullyDefined_own {defs : Table Definition} {s : String}
    (h : FullyDefined defs (.str s)) : ∃ d, ownGet defs.own s = some d := by
  obtain ⟨t, ht, hh⟩ := h (.str s) Relation.ReflTransGen.refl
  cases ht
  unfold has at hh
  cases hg : ownGet defs.own s with
  | none => simp [hg] at hh
  | some d => exact ⟨d, rfl⟩

theorem settled_reach (defs : Table Definition) (hp : "__proto__" ∉ keys defs.own)
    (ks : List String) (hS : Settled defs ks) :
    ∀ s ∈ ks, FullyDefined defs (.str s) → ∀ y, Reaches defs (.str s) y →
      (∃ t, y = .str t ∧ t ∈ ks) ∧ ¬ OnCycle defs y := by
  induction hS with
  | nil => intro s hs; cases hs
  | snoc ks k d _ hk hd hdeps ih =>
    have step : ∀ c, DependsOn defs (.str k) c → FullyDefined defs (.str k) →
        ∃ t, c = .str t ∧ t ∈ ks ∧ FullyDefined defs (.str t) := by
      intro c hc hfd
      obtain ⟨s1, d1, e1, hd1, hmem⟩ := hc
      cases e1
      rw [hd] at hd1
      cases hd1
      obtain ⟨t, ht, hin⟩ := hdeps c hmem
      have hfdc : FullyDefined defs c :=
        fullyDefined_of_reaches hfd (Relation.ReflTransGen.single ⟨k, d, rfl, hd, hmem⟩)
      subst ht
      refine ⟨t, rfl, ?_, hfdc⟩
      rcases hin with hin | hin
      · exact hin
      · exfalso
        obtain ⟨d2, hd2⟩ := fullyDefined_own hfdc
        apply hp
        rw [← hin]
        apply (ownGet_isSome_iff _ _).1
        simp [hd2]
    intro s hs hfd y hy
    rcases List.mem_append.1 hs with hs | hs
    · obtain ⟨⟨t, ht, hin⟩, hcy⟩ := ih s hs hfd y hy
      exact ⟨⟨t, ht, List.mem_append_left _ hin⟩, hcy⟩
    · simp at hs
      subst hs
      rcases Relation.ReflTransGen.cases_head hy with heq | ⟨c, hc, hcy⟩
      · subst heq
        refine ⟨⟨s, rfl, by simp⟩, ?_⟩
        intro hcyc
        obtain ⟨c, hc, hback⟩ := Relation.TransGen.head'_iff.1 hcyc
        obtain ⟨t, ht, hin, hfdt⟩ := step c hc hfd
        subst ht
        obtain ⟨⟨t2, ht2, hin2⟩, _⟩ := ih t hin hfdt _ hback
        cases ht2
        exact hk hin2
      · obtain ⟨t, ht, hin, hfdt⟩ := step c hc hfd
        subst ht
        obtain ⟨⟨t2, ht2, hin2⟩, hcy2⟩ := ih t hin hfdt y hcy
        exact ⟨⟨t2, ht2, List.mem_append_left _ hin2⟩, hcy2⟩
  | proto ks _ ih =>
    intro s hs hfd y hy
    rcases List.mem_append.1 hs with hs | hs
    · obtain ⟨⟨t, ht, hin⟩, hcy⟩ := ih s hs hfd y hy
      exact ⟨⟨t, ht, List.mem_append_left _ hin⟩, hcy⟩
    · exfalso
      simp at hs
      subst hs
      obtain ⟨d2, hd2⟩ := fullyDefined_own hfd
      apply hp
      apply (ownGet_isSome_iff _ _).1
      simp [hd2]

theorem eval_fullyDefined {defs : Table Definition} (t : Task) (run : Run) (res : Res)
    (run1 : Run) (h : Eval defs t run res run1) :
    (∀ id stack r, t = .one id stack → res = .one r →
      FullyDefined defs id → (∀ t ∈ stack, Reaches defs (.str t) id) →
      ∀ e, r = .error e → ∃ dep stk, e.err = .circularDependency dep stk ∧
        Reaches defs id dep ∧ OnCycle defs dep) ∧
    (∀ deps stack r, t = .each deps stack → res = .each r →
      ∀ cur, cur ∈ stack → (∀ dep ∈ deps, DependsOn defs (.str cur) dep) →
      FullyDefined defs (.str cur) → (∀ t ∈ stack, Reaches defs (.str t) (.str cur)) →
      ∀ e, r = .error e → ∃ dep stk, e.err = .circularDependency dep stk ∧
        Reaches defs (.str cur) dep ∧ OnCycle defs dep) := by
  refine Eval.induct2
    (fun id stack _ r _ =>
      FullyDefined defs id → (∀ t ∈ stack, Reaches defs (.str t) id) →
      ∀ e, r = .error e → ∃ dep stk, e.err = .circularDependency dep stk ∧
        Reaches defs id dep ∧ OnCycle defs dep)
    (fun deps stack _ r _ =>
      ∀ cur, cur ∈ stack → (∀ dep ∈ deps, DependsOn defs (.str cur) dep) →
      FullyDefined defs (.str cur) → (∀ t ∈ stack, Reaches defs (.str t) (.str cur)) →
      ∀ e, r = .error e → ∃ dep stk, e.err = .circularDependency dep stk ∧
        Reaches defs (.str cur) dep ∧ OnCycle defs dep)
    ?_ ?_ ?_ ?_ ?_ ?_ ?_ ?_ ?_ ?_ ?_ t run res run1 h
  · -- invalidId
    intro id stack run hid hfd _ e _
    obtain ⟨s, hs, _⟩ := hfd id Relation.ReflTransGen.refl
    exact absurd hs (hid s)
  · -- memo
    intro s stack run v _ _ _ e he
    cases he
  · -- undefinedId
    intro s stack run _ hd hfd _ e _
    obtain ⟨d, hown⟩ := fullyDefined_own hfd
    rw [getDef_of_own defs s d hown] at hd
    cases hd
  · -- foreign
    intro s stack run _ hd hfd _ e _
    obtain ⟨d, hown⟩ := fullyDefined_own hfd
    rw [getDef_of_own defs s d hown] at hd
    cases hd
  · -- depsThrow
    intro s stack run d e run1 _ hd _ ih hfd hst e2 he2
    cases he2
    obtain ⟨d1, hown⟩ := fullyDefined_own hfd
    rw [getDef_of_own defs s d1 hown] at hd
    have hdd : d1 = d := Found.record.inj hd
    rw [hdd] at hown
    refine ih s (by simp) (fun dep hdep => ⟨s, d, rfl, hown, hdep⟩) hfd ?_ e rfl
    intro t ht
    rcases List.mem_append.1 ht with h1 | h1
    · exact hst t h1
    · simp at h1
      subst h1
      exact Relation.ReflTransGen.refl
  · -- build
    intro s stack run d vs run1 _ _ _ _ _ _ e he
    cases he
  · -- done
    intro stack run cur _ _ _ _ e he
    cases he
  · -- circular
    intro depId rest stack run hc cur _ hdeps _ hst e he
    cases he
    obtain ⟨t, ht, hin⟩ := (contains_eq_true_iff _ _).1 hc
    subst ht
    have hedge : DependsOn defs (.str cur) (.str t) := hdeps _ (List.mem_cons_self _ _)
    exact ⟨_, _, rfl, Relation.ReflTransGen.single hedge,
      Relation.TransGen.tail' (hst t hin) hedge⟩
  · -- headThrow
    intro depId rest stack run e run1 _ _ ih cur _ hdeps hfd hst e2 he2
    cases he2
    have hedge : DependsOn defs (.str cur) depId := hdeps _ (List.mem_cons_self _ _)
    have hreach : Reaches defs (.str cur) depId := Relation.ReflTransGen.single hedge
    obtain ⟨dep, stk, h1, h2, h3⟩ := ih (fullyDefined_of_reaches hfd hreach)
      (fun t ht => Relation.ReflTransGen.tail (hst t ht) hedge) e rfl
    exact ⟨dep, stk, h1, Relation.ReflTransGen.trans hreach h2, h3⟩
  · -- tailThrow
    intro depId rest stack run v run1 e run2 _ _ _ _ ih2 cur hcur hdeps hfd hst e2 he2
    exact ih2 cur hcur (fun dep hdep => hdeps dep (List.mem_cons_of_mem _ hdep)) hfd hst e2 he2
  · -- next
    intro depId rest stack run v run1 vs run2 _ _ _ _ _ cur _ _ _ _ e he
    cases he

/-! ## Checking the hypotheses on a concrete registry -/

theorem fullyDefined_of_closedUnder (defs : Table Definition) (ids : List String)
    (h : closedUnder defs ids = true) : ∀ s ∈ ids, FullyDefined defs (.str s) := by
  have hall : ∀ s ∈ ids, ∃ d, ownGet defs.own s = some d ∧
      ∀ dep ∈ d.deps, ∃ t, dep = .str t ∧ t ∈ ids := by
    intro s hs
    have h1 := List.all_eq_true.1 h s hs
    cases hg : ownGet defs.own s with
    | none => simp [hg] at h1
    | some d =>
      refine ⟨d, rfl, ?_⟩
      intro dep hdep
      simp only [hg] at h1
      have h2 := List.all_eq_true.1 h1 dep hdep
      cases dep with
      | str t => exact ⟨t, rfl, by simpa using h2⟩
      | undefined | null | bool _ | num _ | obj _ => simp at h2
  have hreach : ∀ s ∈ ids, ∀ y, Reaches defs (.str s) y → ∃ t, y = .str t ∧ t ∈ ids := by
    intro s hs y hy
    induction hy with
    | refl => exact ⟨s, rfl, hs⟩
    | tail _ hedge ih =>
      obtain ⟨t, ht, hin⟩ := ih
      obtain ⟨s1, d, e1, hown, hmem⟩ := hedge
      rw [ht] at e1
      cases e1
      obtain ⟨d1, hd1, hdeps⟩ := hall t hin
      rw [hown] at hd1
      cases hd1
      exact hdeps _ hmem
  intro s hs y hy
  obtain ⟨t, ht, hin⟩ := hreach s hs y hy
  obtain ⟨d, hd, _⟩ := hall t hin
  exact ⟨t, ht, by simp [has, hd]⟩

theorem settled_of_inOrder (defs : Table Definition) (todo : List String) :
    ∀ seen, Settled defs seen → inOrder defs seen todo = true → Settled defs (seen ++ todo) := by
  induction todo with
  | nil => intro seen hS _; simpa using hS
  | cons k rest ih =>
    intro seen hS h
    simp only [inOrder, Bool.and_eq_true, Bool.not_eq_true', decide_eq_false_iff_not] at h
    obtain ⟨⟨hk, hdeps⟩, hrest⟩ := h
    cases hg : ownGet defs.own k with
    | none => simp [hg] at hdeps
    | some d =>
      simp only [hg] at hdeps
      have hS1 : Settled defs (seen ++ [k]) := by
        refine Settled.snoc seen k d hS hk hg ?_
        intro dep hdep
        have h2 := List.all_eq_true.1 hdeps dep hdep
        cases dep with
        | str t => exact ⟨t, rfl, Or.inl (by simpa using h2)⟩
        | undefined | null | bool _ | num _ | obj _ => simp at h2
      have := ih (seen ++ [k]) hS1 hrest
      simpa using this

theorem acyclic_of_inOrder (defs : Table Definition) (ids : List String)
    (hp : "__proto__" ∉ keys defs.own) (h : inOrder defs [] ids = true)
    (s : String) (hs : s ∈ ids) (hfd : FullyDefined defs (.str s)) : Acyclic defs (.str s) := by
  have hS : Settled defs ids := by
    have := settled_of_inOrder defs ids [] Settled.nil h
    simpa using this
  intro y hy
  exact (settled_reach defs hp ids hS s hs hfd y hy).2

theorem reachable_registryABC : Reachable registryABC :=
  Reachable.define _ _ _ _ (Reachable.define _ _ _ _ (Reachable.define _ _ _ _ Reachable.create))

theorem reachable_registryXY : Reachable registryXY :=
  Reachable.define _ _ _ _ (Reachable.define _ _ _ _ Reachable.create)

theorem require_memo (r : Registry) (s : String) (v : Val)
    (h : ownGet r.instances.own s = some v) :
    require r (.str s) none = some ⟨.ok v, r, none⟩ := by
  simp [require, fuelFor, resolve, h]

theorem forall₂_with_mem {α β : Type} {R : α → β → Prop} {l1 : List α} {l2 : List β}
    (h : List.Forall₂ R l1 l2) : List.Forall₂ (fun a b => a ∈ l1 ∧ R a b) l1 l2 := by
  induction h with
  | nil => exact List.Forall₂.nil
  | cons hab _ ih =>
    refine List.Forall₂.cons ⟨List.mem_cons_self _ _, hab⟩ ?_
    exact List.Forall₂.imp (fun a b hx => ⟨List.mem_cons_of_mem _ hx.1, hx.2⟩) ih

/-! ## Behaviour away from the names that `Object.prototype` provides -/

/-- Memoisation: a successful `require` of an id other than `__proto__` is
answered from `instances` from then on, with the same value and no change. -/
theorem require_memoised (r : Registry) (s : String) (out : Outcome) (v : Val)
    (h : require r (.str s) none = some out) (hres : out.result = .ok v)
    (hp : s ≠ "__proto__") :
    require out.registry (.str s) none = some ⟨.ok v, out.registry, none⟩ := by
  obtain ⟨run1, hev, hreg, _⟩ := require_eval r (.str s) out h
  rw [hres] at hev
  obtain ⟨s1, hs1, hstored⟩ := eval_ok_stored _ _ _ _ _ hev
  cases hs1
  apply require_memo
  rw [hreg]
  rcases hstored with h1 | h1
  · exact h1
  · exact absurd h1 hp

/-- The read `definitions[id]` finds nothing when `id` is no own entry, no
record was installed as prototype, and `Object.prototype` has no such name. -/
theorem getDef_missing (defs : Table Definition) (s : String)
    (hown : has defs s = false) (hproto : defs.proto = none)
    (hkey : s ∉ objectPrototypeKeys) : getDef defs s = .missing := by
  have h1 : ownGet defs.own s = none := (has_eq_false_iff _ _).1 hown
  simp [getDef, h1, hproto, hkey]

/-- An id that the read `definitions[id]` does not find and that has no
instance makes `require` throw `UndefinedId` naming it, with nothing changed. -/
theorem require_undefined (r : Registry) (s : String)
    (hdef : getDef r.definitions s = .missing) (hinst : has r.instances s = false) :
    require r (.str s) none = some ⟨.error ⟨.undefinedId s, []⟩, r, none⟩ := by
  have h1 : ownGet r.instances.own s = none := (has_eq_false_iff _ _).1 hinst
  simp [require, fuelFor, resolve, h1, hdef]

/-- The three checks of `define` decide alone whether it throws, and a throw
changes nothing. -/
theorem define_error_iff (r : Registry) (id : Val) (deps : DepsArg) (defn : DefArg) :
    ((∃ e, (define r id deps defn).1 = .error e) ↔
      ((∀ s, id ≠ .str s) ∨ (∃ s, id = .str s ∧ has r.definitions s = true) ∨
        (∃ v, deps = .other v))) ∧
    ((∃ e, (define r id deps defn).1 = .error e) → (define r id deps defn).2 = r) := by
  cases id with
  | str s =>
    by_cases hh : has r.definitions s = true
    · simp [define, hh]
    · cases deps with
      | other v => simp [define, hh]
      | array ds => simp [define, hh]
  | undefined | null | bool _ | num _ | obj _ => simp [define]

/-- A `define` that passes its checks for an id other than `__proto__` adds
exactly the entry for that id and keeps every other entry, the prototype, the
instance table and the trace. -/
theorem define_adds_entry (r : Registry) (s : String) (ds : List Val) (f : Nat → List Val → Val)
    (hh : has r.definitions s = false) (hp : s ≠ "__proto__") :
    (define r (.str s) (.array ds) (.function f)).1 = .ok () ∧
    ownGet (define r (.str s) (.array ds) (.function f)).2.definitions.own s
      = some ⟨s, ds, f⟩ ∧
    (∀ k, k ≠ s → ownGet (define r (.str s) (.array ds) (.function f)).2.definitions.own k
      = ownGet r.definitions.own k) ∧
    (define r (.str s) (.array ds) (.function f)).2.definitions.proto = r.definitions.proto ∧
    (define r (.str s) (.array ds) (.function f)).2.instances = r.instances ∧
    (define r (.str s) (.array ds) (.function f)).2.calls = r.calls := by
  have hcond : ¬ (Table.viaSetter (fun _ => false) r.definitions s = true) :=
    fun hc => hp (viaSetter_eq_true _ _ _ hc).2
  refine ⟨by simp [define, hh], ?_, ?_, ?_, by simp [define, hh], by simp [define, hh]⟩
  · simp only [define, hh, Bool.false_eq_true, if_false]
    exact ownGet_set_self _ _ _ _ _ hp
  · intro k hk
    simp only [define, hh, Bool.false_eq_true, if_false]
    rw [ownGet_set_of_ne _ _ _ _ _ _ (Ne.symm hk)]
  · simp only [define, hh, Bool.false_eq_true, if_false]
    unfold Table.set
    rw [if_neg hcond]

/-- An id of the override map is answered from it at once: no definition is
looked up and nothing changes. -/
theorem require_fake_override (r : Registry) (s : String) (fakes : Table Val) (v : Val)
    (h : ownGet fakes.own s = some v) :
    require r (.str s) (some fakes) = some ⟨.ok v, r, some fakes⟩ := by
  simp [require, fuelFor, resolve, h]

/-- A successful `require(id, fakes)` of an id other than `__proto__` leaves
the returned value under `id` in the override map. -/
theorem require_fakes_stored (r : Registry) (s : String) (fakes : Table Val) (out : Outcome)
    (v : Val) (h : require r (.str s) (some fakes) = some out) (hres : out.result = .ok v)
    (hp : s ≠ "__proto__") :
    ∃ after, out.fakes = some after ∧ ownGet after.own s = some v := by
  obtain ⟨run1, hev, _, hfk⟩ := require_fakes_eval r (.str s) fakes out h
  rw [hres] at hev
  obtain ⟨s1, hs1, hstored⟩ := eval_ok_stored _ _ _ _ _ hev
  cases hs1
  refine ⟨run1.table, hfk, ?_⟩
  rcases hstored with h1 | h1
  · exact h1
  · exact absurd h1 hp

/-! ## Id-list mode: totality and the rules of `IdList` -/

theorem eachDepId_isSome (rec : Val → List String → Option (Except Thrown (List Val)))
    (stack : List String)
    (hrec : ∀ id, contains stack id = false → ∃ out, rec id stack = some out)
    (deps : List Val) : ∃ out, eachDepId rec stack deps = some out := by
  induction deps with
  | nil => exact ⟨_, rfl⟩
  | cons depId rest ih =>
    simp only [eachDepId]
    by_cases hc : contains stack depId = true
    · simp [hc]
    · have hc2 : contains stack depId = false := by simpa using hc
      obtain ⟨out, ho⟩ := hrec depId hc2
      simp only [hc2, Bool.false_eq_true, if_false, ho]
      cases out with
      | error e => exact ⟨_, rfl⟩
      | ok ids =>
        obtain ⟨out2, ho2⟩ := ih
        simp only [ho2]
        cases out2 with
        | error e => exact ⟨_, rfl⟩
        | ok more => exact ⟨_, rfl⟩

theorem resolveDepIds_isSome (defs : Table Definition) (fuel : Nat) :
    ∀ id stack, stack.Nodup → (∀ t ∈ stack, t ∈ recordIds defs) →
      contains stack id = false → definedCount defs + 1 ≤ fuel + stack.length →
      ∃ out, resolveDepIds defs fuel id stack = some out := by
  induction fuel with
  | zero =>
    intro id stack hnd hsub _ hlen
    have h1 : stack.length ≤ definedCount defs :=
      (List.subperm_of_subset hnd hsub).length_le
    omega
  | succ n ih =>
    intro id stack hnd hsub hc hlen
    cases id with
    | str s =>
      simp only [resolveDepIds]
      cases hd : getDef defs s with
      | missing => exact ⟨_, rfl⟩
      | foreign => exact ⟨_, rfl⟩
      | record d =>
        simp only []
        have hs : s ∉ stack := (contains_str stack s).1 hc
        have hnd2 : (stack ++ [s]).Nodup := by
          rw [List.nodup_append]
          refine ⟨hnd, List.nodup_singleton s, ?_⟩
          intro a ha hb
          simp at hb
          subst hb
          exact hs ha
        have hsub2 : ∀ t ∈ stack ++ [s], t ∈ recordIds defs := by
          intro t ht
          rcases List.mem_append.1 ht with h1 | h1
          · exact hsub t h1
          · simp at h1
            subst h1
            exact getDef_record_ids defs t d hd
        have hlen2 : definedCount defs + 1 ≤ n + (stack ++ [s]).length := by
          simp
          omega
        obtain ⟨out, ho⟩ := eachDepId_isSome (resolveDepIds defs n) (stack ++ [s])
          (fun id2 hc2 => ih id2 (stack ++ [s]) hnd2 hsub2 hc2 hlen2) d.deps
        rw [ho]
        cases out with
        | error e => exact ⟨_, rfl⟩
        | ok vs => exact ⟨_, rfl⟩
    | undefined | null | bool _ | num _ | obj _ => exact ⟨_, rfl⟩

theorem requireDepIds_isSome (r : Registry) (id : Val) :
    ∃ out, requireDepIds r id = some out :=
  resolveDepIds_isSome r.definitions (fuelFor r.definitions) id [] List.nodup_nil (by simp)
    (by cases id <;> simp [contains]) (by simpa using definedCount_le r.definitions)

theorem eachDepId_sound (defs : Table Definition)
    (rec : Val → List String → Option (Except Thrown (List Val))) (stack : List String)
    (hrec : ∀ id l, rec id stack = some (.ok l) → IdList defs (.one id stack) l)
    (deps : List Val) :
    ∀ l, eachDepId rec stack deps = some (.ok l) → IdList defs (.each deps stack) l := by
  induction deps with
  | nil =>
    intro l h
    simp only [eachDepId, Option.some.injEq, Except.ok.injEq] at h
    subst h
    exact IdList.done stack
  | cons depId rest ih =>
    intro l h
    simp only [eachDepId] at h
    by_cases hc : contains stack depId = true
    · simp [hc] at h
    · have hc2 : contains stack depId = false := by simpa using hc
      simp only [hc2, Bool.false_eq_true, if_false] at h
      cases hr : rec depId stack with
      | none => simp [hr] at h
      | some out =>
        cases out with
        | error e => simp [hr] at h
        | ok ids =>
          simp only [hr] at h
          cases hr2 : eachDepId rec stack rest with
          | none => simp [hr2] at h
          | some out2 =>
            cases out2 with
            | error e => simp [hr2] at h
            | ok more =>
              simp only [hr2, Option.some.injEq, Except.ok.injEq] at h
              subst h
              exact IdList.next depId rest stack ids more hc2 (hrec _ _ hr) (ih _ hr2)

theorem resolveDepIds_sound (defs : Table Definition) (fuel : Nat) :
    ∀ id stack l, resolveDepIds defs fuel id stack = some (.ok l) →
      IdList defs (.one id stack) l := by
  induction fuel with
  | zero => intro id stack l h; simp [resolveDepIds] at h
  | succ n ih =>
    intro id stack l h
    cases id with
    | str s =>
      simp only [resolveDepIds] at h
      cases hd : getDef defs s with
      | missing => simp [hd] at h
      | foreign =>
        simp only [hd, Option.some.injEq, Except.ok.injEq] at h
        subst h
        exact IdList.foreign s stack hd
      | record d =>
        simp only [hd] at h
        cases he : eachDepId (resolveDepIds defs n) (stack ++ [s]) d.deps with
        | none => simp [he] at h
        | some out =>
          cases out with
          | error e => simp [he] at h
          | ok raw =>
            simp only [he, Option.some.injEq, Except.ok.injEq] at h
            subst h
            exact IdList.record s stack d raw hd
              (eachDepId_sound defs _ _ (fun id l hl => ih id _ l hl) d.deps raw he)
    | undefined | null | bool _ | num _ | obj _ => simp [resolveDepIds] at h

theorem IdList.inductIds {defs : Table Definition}
    (P : Val → List String → List Val → Prop) (Q : List Val → List String → List Val → Prop)
    (foreign : ∀ s stack, getDef defs s = .foreign → P (.str s) stack (uniq []))
    (record : ∀ s stack d raw, getDef defs s = .record d →
      IdList defs (.each d.deps (stack ++ [s])) raw → Q d.deps (stack ++ [s]) raw →
      P (.str s) stack (uniq raw))
    (done : ∀ stack, Q [] stack [])
    (next : ∀ depId rest stack ids more, contains stack depId = false →
      IdList defs (.one depId stack) ids → IdList defs (.each rest stack) more →
      P depId stack ids → Q rest stack more → Q (depId :: rest) stack (ids ++ depId :: more))
    (t : Task) (l : List Val) (h : IdList defs t l) :
    (∀ id stack, t = .one id stack → P id stack l) ∧
    (∀ deps stack, t = .each deps stack → Q deps stack l) := by
  induction h with
  | foreign s stack hd =>
    refine ⟨fun _ _ h1 => ?_, fun _ _ h1 => by cases h1⟩
    cases h1
    exact foreign s stack hd
  | record s stack d raw hd hsub ih =>
    refine ⟨fun _ _ h1 => ?_, fun _ _ h1 => by cases h1⟩
    cases h1
    exact record s stack d raw hd hsub (ih.2 _ _ rfl)
  | done stack =>
    refine ⟨fun _ _ h1 => (by cases h1), fun _ _ h1 => ?_⟩
    cases h1
    exact done stack
  | next depId rest stack ids more hc hsub1 hsub2 ih1 ih2 =>
    refine ⟨fun _ _ h1 => (by cases h1), fun _ _ h1 => ?_⟩
    cases h1
    exact next depId rest stack ids more hc hsub1 hsub2 (ih1.1 _ _ rfl) (ih2.2 _ _ rfl)

/-- A derivation fixes what the functions return, whatever the fuel. -/
theorem idList_agree {defs : Table Definition} (t : Task) (l : List Val)
    (h : IdList defs t l) :
    (∀ id stack, t = .one id stack →
      ∀ n x, resolveDepIds defs n id stack = some x → x = .ok l) ∧
    (∀ deps stack, t = .each deps stack →
      ∀ n y, eachDepId (resolveDepIds defs n) stack deps = some y → y = .ok l) := by
  refine IdList.inductIds
    (fun id stack l => ∀ n x, resolveDepIds defs n id stack = some x → x = .ok l)
    (fun deps stack l => ∀ n y, eachDepId (resolveDepIds defs n) stack deps = some y → y = .ok l)
    ?_ ?_ ?_ ?_ t l h
  · intro s stack hd n x hx
    cases n with
    | zero => simp [resolveDepIds] at hx
    | succ m =>
      simp only [resolveDepIds, hd, Option.some.injEq] at hx
      exact hx.symm
  · intro s stack d raw hd _ ih n x hx
    cases n with
    | zero => simp [resolveDepIds] at hx
    | succ m =>
      simp only [resolveDepIds, hd] at hx
      cases he : eachDepId (resolveDepIds defs m) (stack ++ [s]) d.deps with
      | none => simp [he] at hx
      | some y =>
        have hy := ih m y he
        subst hy
        simp only [he, Option.some.injEq] at hx
        exact hx.symm
  · intro stack n y hy
    simp only [eachDepId, Option.some.injEq] at hy
    exact hy.symm
  · intro depId rest stack ids more hc _ _ ih1 ih2 n y hy
    simp only [eachDepId, hc, Bool.false_eq_true, if_false] at hy
    cases hr : resolveDepIds defs n depId stack with
    | none => simp [hr] at hy
    | some x =>
      have hx := ih1 n x hr
      subst hx
      simp only [hr] at hy
      cases hr2 : eachDepId (resolveDepIds defs n) stack rest with
      | none => simp [hr2] at hy
      | some z =>
        have hz := ih2 n z hr2
        subst hz
        simp only [hr2, Option.some.injEq] at hy
        exact hy.symm

/-- A successful resolution stays one when the stack it starts from shrinks. -/
theorem idList_stack {defs : Table Definition} (t : Task) (l : List Val)
    (h : IdList defs t l) :
    (∀ id stack, t = .one id stack →
      ∀ stack0, (∀ a ∈ stack0, a ∈ stack) → IdList defs (.one id stack0) l) ∧
    (∀ deps stack, t = .each deps stack →
      ∀ stack0, (∀ a ∈ stack0, a ∈ stack) → IdList defs (.each deps stack0) l) := by
  refine IdList.inductIds
    (fun id stack l => ∀ stack0, (∀ a ∈ stack0, a ∈ stack) → IdList defs (.one id stack0) l)
    (fun deps stack l => ∀ stack0, (∀ a ∈ stack0, a ∈ stack) → IdList defs (.each deps stack0) l)
    ?_ ?_ ?_ ?_ t l h
  · intro s stack hd stack0 _
    exact IdList.foreign s stack0 hd
  · intro s stack d raw hd _ ih stack0 hsub
    refine IdList.record s stack0 d raw hd (ih (stack0 ++ [s]) ?_)
    intro a ha
    rcases List.mem_append.1 ha with h1 | h1
    · exact List.mem_append_left _ (hsub a h1)
    · exact List.mem_append_right _ h1
  · intro stack stack0 _
    exact IdList.done stack0
  · intro depId rest stack ids more hc _ _ ih1 ih2 stack0 hsub
    refine IdList.next depId rest stack0 ids more ?_ (ih1 stack0 hsub) (ih2 stack0 hsub)
    cases depId with
    | str s =>
      have hs : s ∉ stack := (contains_str stack s).1 hc
      exact (contains_str stack0 s).2 (fun h0 => hs (hsub s h0))
    | undefined | null | bool _ | num _ | obj _ => rfl

/-- From a derivation to the value of `resolve(id, true)` on an empty stack. -/
theorem requireDepIds_of_idList (r : Registry) (id : Val) (stack : List String) (l : List Val)
    (h : IdList r.definitions (.one id stack) l) : requireDepIds r id = some (.ok l) := by
  have h0 := (idList_stack _ _ h).1 id stack rfl [] (by simp)
  obtain ⟨out, ho⟩ := requireDepIds_isSome r id
  have := (idList_agree _ _ h0).1 id [] rfl _ out ho
  rw [ho, this]

/-! ## `uniq` and the order of an id list -/

theorem uniq_foldl_subset (l : List Val) :
    ∀ acc : Table Nat × List Val, ∀ e ∈ (l.foldl uniqStep acc).2, e ∈ acc.2 ∨ e ∈ l := by
  induction l with
  | nil => intro acc e he; exact Or.inl he
  | cons x rest ih =>
    intro acc e he
    simp only [List.foldl_cons] at he
    rcases ih _ e he with h1 | h1
    · unfold uniqStep at h1
      split at h1
      · exact Or.inl h1
      · simp only [List.mem_append, List.mem_singleton] at h1
        rcases h1 with h2 | h2
        · exact Or.inl h2
        · exact Or.inr (h2 ▸ List.mem_cons_self _ _)
    · exact Or.inr (List.mem_cons_of_mem _ h1)

theorem uniq_subset (l : List Val) : ∀ e ∈ uniq l, e ∈ l := by
  intro e he
  rcases uniq_foldl_subset l (Table.empty, []) e he with h1 | h1
  · cases h1
  · exact h1

theorem idList_strings {defs : Table Definition} (t : Task) (l : List Val)
    (h : IdList defs t l) : ∀ e ∈ l, ∃ s, e = Val.str s := by
  have key := @IdList.inductIds defs
    (fun _ _ l => ∀ e ∈ l, ∃ s, e = Val.str s)
    (fun _ _ l => ∀ e ∈ l, ∃ s, e = Val.str s)
    ?_ ?_ ?_ ?_ t l h
  · cases t with
    | one id stack => exact key.1 id stack rfl
    | each deps stack => exact key.2 deps stack rfl
  · intro s stack _ e he
    exact absurd he (by simp [uniq, Table.empty])
  · intro s stack d raw _ _ ih e he
    exact ih e (uniq_subset raw e he)
  · intro stack e he
    cases he
  · intro depId rest stack ids more _ hsub1 _ ih1 ih2 e he
    rcases List.mem_append.1 he with h1 | h1
    · exact ih1 e h1
    · rcases List.mem_cons.1 h1 with h2 | h2
      · subst h2
        cases hsub1 with
        | foreign s _ _ => exact ⟨s, rfl⟩
        | record s _ _ _ _ _ => exact ⟨s, rfl⟩
      · exact ih2 e h2

theorem idList_avoids_stack {defs : Table Definition} (t : Task) (l : List Val)
    (h : IdList defs t l) :
    (∀ id stack, t = .one id stack → ∀ a, Val.str a ∈ l → a ∉ stack ∧ Val.str a ≠ id) ∧
    (∀ deps stack, t = .each deps stack → ∀ a, Val.str a ∈ l → a ∉ stack) := by
  refine IdList.inductIds
    (fun id stack l => ∀ a, Val.str a ∈ l → a ∉ stack ∧ Val.str a ≠ id)
    (fun _ stack l => ∀ a, Val.str a ∈ l → a ∉ stack)
    ?_ ?_ ?_ ?_ t l h
  · intro s stack _ a ha
    exact absurd ha (by simp [uniq, Table.empty])
  · intro s stack d raw _ _ ih a ha
    have h1 := ih a (uniq_subset raw _ ha)
    constructor
    · exact fun h2 => h1 (List.mem_append_left _ h2)
    · intro h2
      cases h2
      exact h1 (by simp)
  · intro stack a ha
    cases ha
  · intro depId rest stack ids more hc _ _ ih1 ih2 a ha
    rcases List.mem_append.1 ha with h1 | h1
    · exact (ih1 a h1).1
    · rcases List.mem_cons.1 h1 with h2 | h2
      · subst h2
        exact (contains_str stack a).1 hc
      · exact ih2 a h2

theorem ordered_mono (defs : Table Definition) (l : List Val) :
    ∀ seen seen1, (∀ d ∈ seen, d ∈ seen1) → Ordered defs seen l → Ordered defs seen1 l := by
  induction l with
  | nil => intro _ _ _ _; trivial
  | cons e rest ih =>
    intro seen seen1 hsub h
    obtain ⟨⟨le, hle, hd⟩, hrest⟩ := h
    refine ⟨⟨le, hle, fun d hdm => hsub d (hd d hdm)⟩, ih _ _ ?_ hrest⟩
    intro d hdm
    rcases List.mem_append.1 hdm with h1 | h1
    · exact List.mem_append_left _ (hsub d h1)
    · exact List.mem_append_right _ h1

theorem ordered_append (defs : Table Definition) (l1 l2 : List Val) :
    ∀ seen, Ordered defs seen (l1 ++ l2) ↔
      Ordered defs seen l1 ∧ Ordered defs (seen ++ l1) l2 := by
  induction l1 with
  | nil => intro seen; simp [Ordered]
  | cons e rest ih =>
    intro seen
    show (_ ∧ Ordered defs (seen ++ [e]) (rest ++ l2)) ↔
      ((_ ∧ Ordered defs (seen ++ [e]) rest) ∧ Ordered defs (seen ++ e :: rest) l2)
    rw [ih (seen ++ [e])]
    have hl : seen ++ [e] ++ rest = seen ++ e :: rest := by simp
    rw [hl, and_assoc]

theorem uniq_foldl_ordered (defs : Table Definition) (rest : List Val) :
    ∀ (acc : Table Nat × List Val) (q : List Val),
      (∀ e ∈ rest, ∃ s, e = Val.str s) →
      (∀ s, has acc.1 s = true → Val.str s ∈ acc.2) →
      (∀ x ∈ q, x ∈ acc.2) → Ordered defs [] acc.2 → Ordered defs q rest →
      Ordered defs [] (rest.foldl uniqStep acc).2 := by
  induction rest with
  | nil => intro acc q _ _ _ h3 _; exact h3
  | cons x rest ih =>
    intro acc q hstr h1 h2 h3 h4
    obtain ⟨⟨le, hle, hd⟩, hrest⟩ := h4
    obtain ⟨sx, hsx⟩ := hstr x (List.mem_cons_self _ _)
    subst hsx
    simp only [List.foldl_cons]
    have hstr2 : ∀ e ∈ rest, ∃ s, e = Val.str s := fun e he => hstr e (List.mem_cons_of_mem _ he)
    by_cases hh : has acc.1 (propertyKey (Val.str sx)) = true
    · have hacc : uniqStep acc (Val.str sx) = acc := by simp [uniqStep, hh]
      rw [hacc]
      refine ih acc (q ++ [Val.str sx]) hstr2 h1 ?_ h3 hrest
      intro y hy
      rcases List.mem_append.1 hy with h5 | h5
      · exact h2 y h5
      · simp at h5
        subst h5
        exact h1 sx hh
    · have hh2 : has acc.1 sx = false := by simpa [propertyKey] using hh
      have hacc : uniqStep acc (Val.str sx) =
          (Table.set (fun _ => false) (fun _ => false) acc.1 sx 1, acc.2 ++ [Val.str sx]) := by
        simp [uniqStep, propertyKey, hh2]
      rw [hacc]
      refine ih _ (q ++ [Val.str sx]) hstr2 ?_ ?_ ?_ hrest
      · intro s hs
        simp only [has] at hs
        rw [ownGet_set] at hs
        by_cases hcond : Table.viaSetter (fun _ => false) acc.1 sx = true
        · rw [if_pos hcond] at hs
          exact List.mem_append_left _ (h1 s hs)
        · rw [if_neg hcond] at hs
          by_cases hk : sx = s
          · subst hk
            simp
          · rw [if_neg hk] at hs
            exact List.mem_append_left _ (h1 s hs)
      · intro y hy
        rcases List.mem_append.1 hy with h5 | h5
        · exact List.mem_append_left _ (h2 y h5)
        · exact List.mem_append_right _ h5
      · rw [ordered_append]
        refine ⟨h3, ⟨le, hle, ?_⟩, trivial⟩
        intro d hdm
        simp only [List.nil_append]
        exact h2 d (hd d hdm)

theorem uniq_ordered (defs : Table Definition) (raw : List Val)
    (hstr : ∀ e ∈ raw, ∃ s, e = Val.str s) (h : Ordered defs [] raw) :
    Ordered defs [] (uniq raw) :=
  uniq_foldl_ordered defs raw (Table.empty, []) [] hstr
    (by intro s hs; simp [has, Table.empty, ownGet] at hs) (by simp) trivial h

theorem idList_ordered {defs : Table Definition} (t : Task) (l : List Val)
    (h : IdList defs t l) : Ordered defs [] l := by
  have key := @IdList.inductIds defs
    (fun _ _ l => Ordered defs [] l) (fun _ _ l => Ordered defs [] l)
    ?_ ?_ ?_ ?_ t l h
  · cases t with
    | one id stack => exact key.1 id stack rfl
    | each deps stack => exact key.2 deps stack rfl
  · intro s stack _
    have : uniq [] = [] := rfl
    rw [this]
    trivial
  · intro s stack d raw _ hsub ih
    exact uniq_ordered defs raw (idList_strings _ _ hsub) ih
  · intro stack
    trivial
  · intro depId rest stack ids more _ hsub1 _ ih1 ih2
    rw [ordered_append]
    refine ⟨ih1, ⟨ids, (idList_stack _ _ hsub1).1 depId stack rfl [] (by simp), ?_⟩, ?_⟩
    · intro d hd
      simpa using hd
    · exact ordered_mono defs more [] _ (by simp) ih2

theorem ordered_split (defs : Table Definition) (p : List Val) (e : Val) (s : List Val)
    (seen : List Val) (h : Ordered defs seen (p ++ e :: s)) :
    ∃ le, IdList defs (.one e []) le ∧ ∀ d ∈ le, d ∈ seen ++ p := by
  rw [ordered_append] at h
  exact h.2.1

/-! ## More fuel changes nothing -/

theorem resolve_str (defs : Table Definition) (n : Nat) (s : String) (stack : List String)
    (run : Run) :
    resolve defs (n + 1) (.str s) stack run =
      match ownGet run.table.own s with
      | some v => some (.ok v, run)
      | none =>
        match getDef defs s with
        | .missing => some (.error ⟨.undefinedId s, stack⟩, run)
        | .foreign => some (.error ⟨.typeError, stack ++ [s]⟩, run)
        | .record d =>
          match eachDep (resolve defs n) (stack ++ [s]) d.deps run with
          | none => none
          | some (.error e, run1) => some (.error e, run1)
          | some (.ok deps, run1) =>
            some (.ok (d.fn run1.calls.length deps),
              ⟨Table.set Val.isObjectOrNull Val.isNull run1.table s (d.fn run1.calls.length deps),
                run1.calls ++ [s]⟩) :=
  rfl

theorem resolveDepIds_str (defs : Table Definition) (n : Nat) (s : String)
    (stack : List String) :
    resolveDepIds defs (n + 1) (.str s) stack =
      match getDef defs s with
      | .missing => some (.error ⟨.undefinedId s, stack⟩)
      | .foreign => some (.ok (uniq []))
      | .record d =>
        match eachDepId (resolveDepIds defs n) (stack ++ [s]) d.deps with
        | none => none
        | some (.error e) => some (.error e)
        | some (.ok deps) => some (.ok (uniq deps)) :=
  rfl

theorem eachDep_mono (rec1 rec2 : Val → List String → Run → Option (Except Thrown Val × Run))
    (h : ∀ id stack run x, rec1 id stack run = some x → rec2 id stack run = some x)
    (stack : List String) (deps : List Val) :
    ∀ run x, eachDep rec1 stack deps run = some x → eachDep rec2 stack deps run = some x := by
  induction deps with
  | nil => intro run x hx; simpa [eachDep] using hx
  | cons depId rest ih =>
    intro run x hx
    simp only [eachDep] at hx ⊢
    by_cases hc : contains stack depId = true
    · simpa [hc] using hx
    · have hc2 : contains stack depId = false := by simpa using hc
      simp only [hc2, Bool.false_eq_true, if_false] at hx ⊢
      cases hr : rec1 depId stack run with
      | none => simp [hr] at hx
      | some out =>
        obtain ⟨r0, runA⟩ := out
        rw [h _ _ _ _ hr]
        simp only [hr] at hx
        cases r0 with
        | error e => exact hx
        | ok v =>
          simp only [] at hx ⊢
          cases hr2 : eachDep rec1 stack rest runA with
          | none => simp [hr2] at hx
          | some out2 =>
            rw [ih _ _ hr2]
            simp only [hr2] at hx
            exact hx

theorem resolve_mono (defs : Table Definition) (fuel : Nat) :
    ∀ id stack run x, resolve defs fuel id stack run = some x →
      resolve defs (fuel + 1) id stack run = some x := by
  induction fuel with
  | zero => intro id stack run x hx; simp [resolve] at hx
  | succ n ih =>
    intro id stack run x hx
    cases id with
    | str s =>
      rw [resolve_str] at hx ⊢
      cases hg : ownGet run.table.own s with
      | some v => simpa [hg] using hx
      | none =>
        simp only [hg] at hx ⊢
        cases hd : getDef defs s with
        | missing => simpa [hd] using hx
        | foreign => simpa [hd] using hx
        | record d =>
          simp only [hd] at hx ⊢
          cases he : eachDep (resolve defs n) (stack ++ [s]) d.deps run with
          | none => simp [he] at hx
          | some out =>
            rw [eachDep_mono _ _ ih _ _ _ _ he]
            simp only [he] at hx
            exact hx
    | undefined | null | bool _ | num _ | obj _ =>
      simp only [resolve] at hx ⊢
      exact hx

theorem resolve_fuel (defs : Table Definition) (n m : Nat) (hnm : n ≤ m) (id : Val)
    (stack : List String) (run : Run) (x : Except Thrown Val × Run)
    (h : resolve defs n id stack run = some x) : resolve defs m id stack run = some x := by
  induction hnm with
  | refl => exact h
  | step _ ih => exact resolve_mono defs _ _ _ _ _ ih

theorem eachDepId_mono (rec1 rec2 : Val → List String → Option (Except Thrown (List Val)))
    (h : ∀ id stack x, rec1 id stack = some x → rec2 id stack = some x)
    (stack : List String) (deps : List Val) :
    ∀ x, eachDepId rec1 stack deps = some x → eachDepId rec2 stack deps = some x := by
  induction deps with
  | nil => intro x hx; simpa [eachDepId] using hx
  | cons depId rest ih =>
    intro x hx
    simp only [eachDepId] at hx ⊢
    by_cases hc : contains stack depId = true
    · simpa [hc] using hx
    · have hc2 : contains stack depId = false := by simpa using hc
      simp only [hc2, Bool.false_eq_true, if_false] at hx ⊢
      cases hr : rec1 depId stack with
      | none => simp [hr] at hx
      | some out =>
        rw [h _ _ _ hr]
        simp only [hr] at hx
        cases out with
        | error e => exact hx
        | ok ids =>
          simp only [] at hx ⊢
          cases hr2 : eachDepId rec1 stack rest with
          | none => simp [hr2] at hx
          | some out2 =>
            rw [ih _ hr2]
            simp only [hr2] at hx
            exact hx

theorem resolveDepIds_mono (defs : Table Definition) (fuel : Nat) :
    ∀ id stack x, resolveDepIds defs fuel id stack = some x →
      resolveDepIds defs (fuel + 1) id stack = some x := by
  induction fuel with
  | zero => intro id stack x hx; simp [resolveDepIds] at hx
  | succ n ih =>
    intro id stack x hx
    cases id with
    | str s =>
      rw [resolveDepIds_str] at hx ⊢
      cases hd : getDef defs s with
      | missing => simpa [hd] using hx
      | foreign => simpa [hd] using hx
      | record d =>
        simp only [hd] at hx ⊢
        cases he : eachDepId (resolveDepIds defs n) (stack ++ [s]) d.deps with
        | none => simp [he] at hx
        | some out =>
          rw [eachDepId_mono _ _ ih _ _ _ he]
          simp only [he] at hx
          exact hx
    | undefined | null | bool _ | num _ | obj _ =>
      simp only [resolveDepIds] at hx ⊢
      exact hx

theorem resolveDepIds_fuel (defs : Table Definition) (n m : Nat) (hnm : n ≤ m) (id : Val)
    (stack : List String) (x : Except Thrown (List Val))
    (h : resolveDepIds defs n id stack = some x) : resolveDepIds defs m id stack = some x := by
  induction hnm with
  | refl => exact h
  | step _ ih => exact resolveDepIds_mono defs _ _ _ _ ih

/-! ## The resolution stack of a frame that throws -/

theorem recorded_length (defs : Table Definition) (stack : List String)
    (h : Recorded defs stack) : stack.length ≤ definedCount defs := by
  have hsub : ∀ t ∈ stack, t ∈ recordIds defs := by
    intro t ht
    obtain ⟨d, hd⟩ := h.2 t ht
    exact getDef_record_ids defs t d hd
  exact (List.subperm_of_subset h.1 hsub).length_le

theorem nodup_snoc (stack : List String) (s : String) (hnd : stack.Nodup) (hs : s ∉ stack) :
    (stack ++ [s]).Nodup := by
  rw [List.nodup_append]
  refine ⟨hnd, List.nodup_singleton s, ?_⟩
  intro a ha hb
  simp at hb
  subst hb
  exact hs ha

theorem recorded_snoc (defs : Table Definition) (stack : List String) (s : String)
    (d : Definition) (h : Recorded defs stack) (hs : s ∉ stack)
    (hd : getDef defs s = .record d) : Recorded defs (stack ++ [s]) := by
  refine ⟨nodup_snoc stack s h.1 hs, ?_⟩
  intro t ht
  rcases List.mem_append.1 ht with h1 | h1
  · exact h.2 t h1
  · simp at h1
    subst h1
    exact ⟨d, hd⟩

theorem visits_recorded {defs : Table Definition} (t : Task) (id1 : Val)
    (stack1 : List String) (h : Visits defs t id1 stack1) :
    (∀ id stack, t = .one id stack → contains stack id = false → Recorded defs stack →
      contains stack1 id1 = false ∧ Recorded defs stack1) ∧
    (∀ deps stack, t = .each deps stack → Recorded defs stack →
      contains stack1 id1 = false ∧ Recorded defs stack1) := by
  induction h with
  | here id stack =>
    refine ⟨fun _ _ h1 hc hR => ?_, fun _ _ h1 _ => by cases h1⟩
    cases h1
    exact ⟨hc, hR⟩
  | deps s stack d id1 stack1 hd _ ih =>
    refine ⟨fun _ _ h1 hc hR => ?_, fun _ _ h1 _ => by cases h1⟩
    cases h1
    exact ih.2 _ _ rfl (recorded_snoc defs stack s d hR ((contains_str stack s).1 hc) hd)
  | head depId rest stack id1 stack1 hc _ ih =>
    refine ⟨fun _ _ h1 _ _ => (by cases h1), fun _ _ h1 hR => ?_⟩
    cases h1
    exact ih.1 _ _ rfl hc hR
  | tail depId rest stack id1 stack1 _ ih =>
    refine ⟨fun _ _ h1 _ _ => (by cases h1), fun _ _ h1 hR => ?_⟩
    cases h1
    exact ih.2 _ _ rfl hR

theorem eval_thrown_stack {defs : Table Definition} (t : Task) (run : Run) (res : Res)
    (run1 : Run) (h : Eval defs t run res run1) :
    (∀ id stack r, t = .one id stack → res = .one r →
      contains stack id = false → Recorded defs stack →
      ∀ e, r = .error e → e.err ≠ .typeError → Recorded defs e.stack) ∧
    (∀ deps stack r, t = .each deps stack → res = .each r →
      Recorded defs stack → ∀ e, r = .error e → e.err ≠ .typeError →
      Recorded defs e.stack) := by
  refine Eval.induct2
    (fun id stack _ r _ =>
      contains stack id = false → Recorded defs stack →
      ∀ e, r = .error e → e.err ≠ .typeError → Recorded defs e.stack)
    (fun _ stack _ r _ =>
      Recorded defs stack → ∀ e, r = .error e → e.err ≠ .typeError →
      Recorded defs e.stack)
    ?_ ?_ ?_ ?_ ?_ ?_ ?_ ?_ ?_ ?_ ?_ t run res run1 h
  · intro id stack run _ _ hR e he _
    cases he
    exact hR
  · intro s stack run v _ _ _ e he
    cases he
  · intro s stack run _ _ _ hR e he _
    cases he
    exact hR
  · intro s stack run _ _ _ _ e he hne
    cases he
    exact absurd rfl hne
  · intro s stack run d e run1 _ hd _ ih hc hR e1 he
    cases he
    exact ih (recorded_snoc defs stack s d hR ((contains_str stack s).1 hc) hd) e rfl
  · intro s stack run d vs run1 _ _ _ _ _ _ e he
    cases he
  · intro stack run _ e he
    cases he
  · intro depId rest stack run _ hR e he _
    cases he
    exact hR
  · intro depId rest stack run e run1 hc _ ih hR e1 he
    cases he
    exact ih hc hR e rfl
  · intro depId rest stack run v run1 e run2 _ _ _ _ ih2 hR e1 he
    exact ih2 hR e1 he
  · intro depId rest stack run v run1 vs run2 _ _ _ _ _ _ e he
    cases he

theorem eachDepId_thrown (defs : Table Definition)
    (rec : Val → List String → Option (Except Thrown (List Val))) (stack : List String)
    (hR : Recorded defs stack)
    (hrec : ∀ id e, contains stack id = false → rec id stack = some (.error e) →
      Recorded defs e.stack ∧ e.err ≠ .typeError)
    (deps : List Val) :
    ∀ e, eachDepId rec stack deps = some (.error e) →
      Recorded defs e.stack ∧ e.err ≠ .typeError := by
  induction deps with
  | nil =>
    intro e he
    simp [eachDepId] at he
  | cons depId rest ih =>
    intro e he
    simp only [eachDepId] at he
    by_cases hc : contains stack depId = true
    · simp only [hc, if_true, Option.some.injEq, Except.error.injEq] at he
      subst he
      exact ⟨hR, by simp⟩
    · have hc2 : contains stack depId = false := by simpa using hc
      simp only [hc2, Bool.false_eq_true, if_false] at he
      cases h1 : rec depId stack with
      | none => simp [h1] at he
      | some out =>
        cases out with
        | error e1 =>
          simp only [h1, Option.some.injEq, Except.error.injEq] at he
          subst he
          exact hrec depId e1 hc2 h1
        | ok ids =>
          simp only [h1] at he
          cases h2 : eachDepId rec stack rest with
          | none => simp [h2] at he
          | some out2 =>
            cases out2 with
            | error e2 =>
              simp only [h2, Option.some.injEq, Except.error.injEq] at he
              subst he
              exact ih e2 h2
            | ok more => simp [h2] at he

theorem resolveDepIds_thrown (defs : Table Definition) (fuel : Nat) :
    ∀ id stack e, contains stack id = false → Recorded defs stack →
      resolveDepIds defs fuel id stack = some (.error e) →
      Recorded defs e.stack ∧ e.err ≠ .typeError := by
  induction fuel with
  | zero =>
    intro id stack e _ _ he
    simp [resolveDepIds] at he
  | succ n ih =>
    intro id stack e hc hR he
    cases id with
    | str s =>
      rw [resolveDepIds_str] at he
      cases hd : getDef defs s with
      | missing =>
        simp only [hd, Option.some.injEq, Except.error.injEq] at he
        subst he
        exact ⟨hR, by simp⟩
      | foreign => simp [hd] at he
      | record d =>
        simp only [hd] at he
        have hR2 := recorded_snoc defs stack s d hR ((contains_str stack s).1 hc) hd
        cases h1 : eachDepId (resolveDepIds defs n) (stack ++ [s]) d.deps with
        | none => simp [h1] at he
        | some out =>
          cases out with
          | error e1 =>
            simp only [h1, Option.some.injEq, Except.error.injEq] at he
            subst he
            exact eachDepId_thrown defs (resolveDepIds defs n) (stack ++ [s]) hR2
              (fun id2 e2 hc2 h2 => ih id2 (stack ++ [s]) e2 hc2 hR2 h2) d.deps e1 h1
          | ok deps => simp [h1] at he
    | undefined | null | bool _ | num _ | obj _ =>
      simp only [resolveDepIds, Option.some.injEq, Except.error.injEq] at he
      subst he
      exact ⟨hR, by simp⟩

/-! ## `state` -/

theorem mem_objectEntries {α : Type} (own : List (String × α)) (p : String × α) :
    p ∈ objectEntries own ↔ p ∈ own := by
  unfold objectEntries
  rw [List.mem_append, (List.perm_insertionSort _ _).mem_iff, List.mem_filter, List.mem_filter]
  cases h : arrayIndex p.1 <;> simp [h]

theorem keys_objectEntries {α : Type} (own : List (String × α)) (k : String) :
    k ∈ keys (objectEntries own) ↔ k ∈ keys own := by
  unfold keys
  simp only [List.mem_map]
  constructor
  · rintro ⟨p, hp, rfl⟩
    exact ⟨p, (mem_objectEntries own p).1 hp, rfl⟩
  · rintro ⟨p, hp, rfl⟩
    exact ⟨p, (mem_objectEntries own p).2 hp, rfl⟩

theorem ownGet_mem {α : Type} (own : List (String × α)) (k : String) (v : α)
    (h : ownGet own k = some v) : (k, v) ∈ own := by
  induction own with
  | nil => simp [ownGet] at h
  | cons p rest ih =>
    obtain ⟨k1, w⟩ := p
    by_cases hk : k1 = k
    · simp only [ownGet, hk, if_true, Option.some.injEq] at h
      subst h; subst hk
      exact List.mem_cons_self _ _
    · simp only [ownGet, hk, if_false] at h
      exact List.mem_cons_of_mem _ (ih h)

theorem stateForward_spec (r : Registry) (entries : List (String × Definition)) :
    ∀ fw, stateForward r entries = some (.ok fw) →
      List.Forall₂ (fun (e : String × Definition) (f : String × Forward) =>
        f.1 = e.1 ∧ f.2.deps = e.2.deps ∧
        requireDepIds r (.str e.1) = some (.ok f.2.reqs) ∧
        f.2.init = has r.instances e.1) entries fw := by
  induction entries with
  | nil =>
    intro fw h
    simp only [stateForward, Option.some.injEq, Except.ok.injEq] at h
    subst h
    exact List.Forall₂.nil
  | cons e rest ih =>
    intro fw h
    obtain ⟨id, d⟩ := e
    simp only [stateForward] at h
    cases hr : requireDepIds r (.str id) with
    | none => simp [hr] at h
    | some out =>
      cases out with
      | error e => simp [hr] at h
      | ok reqs =>
        simp only [hr] at h
        cases hr2 : stateForward r rest with
        | none => simp [hr2] at h
        | some out2 =>
          cases out2 with
          | error e => simp [hr2] at h
          | ok more =>
            simp only [hr2, Option.some.injEq, Except.ok.injEq] at h
            subst h
            exact List.Forall₂.cons ⟨rfl, rfl, hr, rfl⟩ (ih more hr2)

theorem forall₂_exists_of_mem_right {α β : Type} {R : α → β → Prop} {l1 : List α}
    {l2 : List β} (h : List.Forall₂ R l1 l2) (b : β) (hb : b ∈ l2) : ∃ a, a ∈ l1 ∧ R a b := by
  induction h with
  | nil => cases hb
  | cons hab _ ih =>
    rcases List.mem_cons.1 hb with h1 | h1
    · subst h1
      exact ⟨_, List.mem_cons_self _ _, hab⟩
    · obtain ⟨a, ha, hr⟩ := ih h1
      exact ⟨a, List.mem_cons_of_mem _ ha, hr⟩

theorem ownGet_map_info (entries : List (String × Definition)) (fw0 fw : List (String × Forward))
    (k : String) :
    ownGet (fw.map fun p =>
        (p.1, (⟨p.2.deps, p.2.reqs, p.2.init, inverse entries fw0 p.1⟩ : Info))) k
      = (ownGet fw k).map fun f => ⟨f.deps, f.reqs, f.init, inverse entries fw0 k⟩ := by
  induction fw with
  | nil => simp [ownGet]
  | cons p rest ih =>
    obtain ⟨k1, f⟩ := p
    by_cases hk : k1 = k
    · subst hk
      simp [ownGet]
    · simp only [List.map_cons, ownGet, hk, if_false]
      exact ih

theorem mem_inverse (entries : List (String × Definition)) (fw : List (String × Forward))
    (x y : String) :
    x ∈ inverse entries fw y ↔
      x ∈ keys entries ∧ ∃ fx, ownGet fw x = some fx ∧ Val.str y ∈ fx.reqs := by
  unfold inverse keys
  simp only [List.mem_map, List.mem_filter]
  constructor
  · rintro ⟨p, ⟨hp, hc⟩, rfl⟩
    refine ⟨⟨p, hp, rfl⟩, ?_⟩
    cases hg : ownGet fw p.1 with
    | none => simp [hg] at hc
    | some f =>
      simp only [hg, containsId, decide_eq_true_eq] at hc
      exact ⟨f, rfl, hc⟩
  · rintro ⟨⟨p, hp, rfl⟩, f, hf, hy⟩
    refine ⟨p, ⟨hp, ?_⟩, rfl⟩
    simp [hf, containsId, hy]

theorem state_eq (r : Registry) (res : List (String × Info))
    (h : state r = some (.ok res)) :
    ∃ fw, stateForward r (eachDefinition r.definitions) = some (.ok fw) ∧
      res = fw.map fun p =>
        (p.1, ⟨p.2.deps, p.2.reqs, p.2.init, inverse (eachDefinition r.definitions) fw p.1⟩) := by
  unfold state at h
  cases hf : stateForward r (eachDefinition r.definitions) with
  | none => simp [hf] at h
  | some out =>
    cases out with
    | error e => simp [hf] at h
    | ok fw =>
      simp only [hf, Option.some.injEq, Except.ok.injEq] at h
      exact ⟨fw, rfl, h.symm⟩

theorem forall₂_keys (r : Registry) (entries : List (String × Definition))
    (fw : List (String × Forward))
    (h : List.Forall₂ (fun (e : String × Definition) (f : String × Forward) =>
        f.1 = e.1 ∧ f.2.deps = e.2.deps ∧
        requireDepIds r (.str e.1) = some (.ok f.2.reqs) ∧
        f.2.init = has r.instances e.1) entries fw) : keys fw = keys entries := by
  induction h with
  | nil => rfl
  | cons hab _ ih =>
    simp only [keys, List.map_cons] at ih ⊢
    rw [hab.1, ih]

/-! ## Every instance was built by its factory -/

theorem eval_built {defs : Table Definition} (t : Task) (run : Run) (res : Res) (run1 : Run)
    (h : Eval defs t run res run1) :
    (∀ id stack r, t = .one id stack → res = .one r →
      contains stack id = false → (∀ t ∈ stack, ownGet run.table.own t = none) →
      Built defs run.table.own → Built defs run1.table.own) ∧
    (∀ deps stack r, t = .each deps stack → res = .each r →
      (∀ t ∈ stack, ownGet run.table.own t = none) →
      Built defs run.table.own → Built defs run1.table.own) := by
  refine Eval.induct2
    (fun id stack run _ run1 =>
      contains stack id = false → (∀ t ∈ stack, ownGet run.table.own t = none) →
      Built defs run.table.own → Built defs run1.table.own)
    (fun _ stack run _ run1 =>
      (∀ t ∈ stack, ownGet run.table.own t = none) →
      Built defs run.table.own → Built defs run1.table.own)
    ?_ ?_ ?_ ?_ ?_ ?_ ?_ ?_ ?_ ?_ ?_ t run res run1 h
  · intro id stack run _ _ _ hB; exact hB
  · intro s stack run v _ _ _ hB; exact hB
  · intro s stack run _ _ _ _ hB; exact hB
  · intro s stack run _ _ _ _ hB; exact hB
  · intro s stack run d e run1 hg hd _ ih _ hst hB
    refine ih ?_ hB
    intro t ht
    rcases List.mem_append.1 ht with h1 | h1
    · exact hst t h1
    · simp at h1
      subst h1
      exact hg
  · intro s stack run d vs run1 hg hd hsub ih _ hst hB
    have hall : ∀ t ∈ stack ++ [s], ownGet run.table.own t = none := by
      intro t ht
      rcases List.mem_append.1 ht with h1 | h1
      · exact hst t h1
      · simp at h1
        subst h1
        exact hg
    have hB1 := ih hall hB
    have hfr := (eval_frame _ _ _ _ hsub).2 d.deps (stack ++ [s]) (.ok vs) rfl rfl hall
    have habs : ownGet run1.table.own s = none := hfr.1 s (by simp)
    simp only []
    by_cases hv : Table.viaSetter Val.isNull run1.table s = true
    · unfold Table.set
      rw [if_pos hv]
      split
      · exact hB1
      · exact hB1
    · unfold Table.set
      rw [if_neg hv]
      simp only []
      rw [ownSet_of_absent _ _ _ habs]
      intro k v hkv hkp
      rcases List.mem_append.1 hkv with h1 | h1
      · exact hB1 k v h1 hkp
      · simp only [List.mem_singleton, Prod.mk.injEq] at h1
        obtain ⟨hk, hval⟩ := h1
        subst hk; subst hval
        exact ⟨d, _, _, getDef_record_own defs k d hd hkp, rfl⟩
  · intro stack run _ hB; exact hB
  · intro depId rest stack run _ _ hB; exact hB
  · intro depId rest stack run e run1 hc _ ih hst hB
    exact ih hc hst hB
  · intro depId rest stack run v run1 e run2 hc hsub1 _ ih1 ih2 hst hB
    have f1 := (eval_frame _ _ _ _ hsub1).1 depId stack (.ok v) rfl rfl hc hst
    exact ih2 f1.1 (ih1 hc hst hB)
  · intro depId rest stack run v run1 vs run2 hc hsub1 _ ih1 ih2 hst hB
    have f1 := (eval_frame _ _ _ _ hsub1).1 depId stack (.ok v) rfl rfl hc hst
    exact ih2 f1.1 (ih1 hc hst hB)

theorem reachable_built (r : Registry) (h : Reachable r) :
    Built r.definitions r.instances.own := by
  induction h with
  | create =>
    intro k v hkv
    simp [create, Table.empty] at hkv
  | define r id deps defn _ ih =>
    obtain ⟨h1, _, _, h4⟩ := define_definitions r id deps defn
    rw [h1]
    intro k v hkv hkp
    obtain ⟨d, serial, args, hd, hv⟩ := ih k v hkv hkp
    exact ⟨d, serial, args, h4 k d hd, hv⟩
  | require r id out _ hreq ih =>
    obtain ⟨run1, hev, hreg, _⟩ := require_eval r id out hreq
    rw [hreg]
    exact (eval_built _ _ _ _ hev).1 id [] out.result rfl rfl
      (by cases id <;> simp [contains]) (by simp) ih

theorem getDef_after_define (r : Registry) (s : String) (ds : List Val) (defn : DefArg)
    (hnew : has r.definitions s = false) :
    (define r (.str s) (.array ds) defn).1 = .ok () ∧
    ∃ d, getDef (define r (.str s) (.array ds) defn).2.definitions s = .record d ∧
      d.deps = ds ∧ (∀ f, defn = .function f → d.fn = f) ∧
      (∀ v, defn = .value v → d.fn = fun _ _ => v) := by
  have habs : ownGet r.definitions.own s = none := (has_eq_false_iff _ _).1 hnew
  refine ⟨by simp [define, hnew], ?_⟩
  simp only [define, hnew, Bool.false_eq_true, if_false]
  by_cases hp : s = "__proto__"
  · refine ⟨⟨s, ds, (match defn with | .function f => f | .value v => fun _ _ => v)⟩,
      ?_, rfl, ?_, ?_⟩
    · have hv : Table.viaSetter (fun _ => false) r.definitions s = true := by
        rw [viaSetter_never_null, hnew]
        simp [hp]
      unfold Table.set
      rw [if_pos hv]
      simp only [if_true]
      unfold getDef
      subst hp
      simp only [habs, if_true]
    · intro f hf; subst hf; rfl
    · intro v hv; subst hv; rfl
  · refine ⟨⟨s, ds, (match defn with | .function f => f | .value v => fun _ _ => v)⟩,
      ?_, rfl, ?_, ?_⟩
    · apply getDef_of_own
      exact ownGet_set_self _ _ _ _ _ hp
    · intro f hf; subst hf; rfl
    · intro v hv; subst hv; rfl

/-! ## Further behaviour away from `__proto__` and `length` -/

/-- Without an id `length`, a successful `state()` has a record for exactly the
ids of the definition table, each with the declared dependencies, the id-list
resolution of the id, and the presence of the id in `instances`. -/
theorem state_covers (r : Registry) (res : List (String × Info))
    (hlen : has r.definitions "length" = false) (h : state r = some (.ok res)) :
    (∀ k, k ∈ keys res ↔ has r.definitions k = true) ∧
    (∀ k info, (k, info) ∈ res → ∃ d, (k, d) ∈ r.definitions.own ∧ info.deps = d.deps ∧
      requireDepIds r (.str k) = some (.ok info.reqs) ∧ info.init = has r.instances k) := by
  obtain ⟨fw, hfw, hres⟩ := state_eq r res h
  have hspec := stateForward_spec r _ fw hfw
  have hkeys := forall₂_keys r _ fw hspec
  have hent : eachDefinition r.definitions = objectEntries r.definitions.own := by
    simp [eachDefinition, hlen]
  subst hres
  constructor
  · intro k
    have hk : keys (fw.map fun p =>
        (p.1, (⟨p.2.deps, p.2.reqs, p.2.init,
          inverse (eachDefinition r.definitions) fw p.1⟩ : Info))) = keys fw := by
      simp [keys, List.map_map, Function.comp_def]
    rw [hk, hkeys, hent, keys_objectEntries, has_eq_true_iff]
  · intro k info hmem
    obtain ⟨p, hp, hpe⟩ := List.mem_map.1 hmem
    obtain ⟨k1, f⟩ := p
    simp only [Prod.mk.injEq] at hpe
    obtain ⟨hk, hinfo⟩ := hpe
    subst hk
    obtain ⟨e, he, hrel⟩ := forall₂_exists_of_mem_right hspec (k1, f) hp
    obtain ⟨ek, d⟩ := e
    obtain ⟨h1, h2, h3, h4⟩ := hrel
    simp only at h1 h2 h3 h4
    subst h1
    rw [hent] at he
    refine ⟨d, (mem_objectEntries _ _).1 he, ?_, ?_, ?_⟩
    · rw [← hinfo]; exact h2
    · rw [← hinfo]; exact h3
    · rw [← hinfo]; exact h4

theorem settled_closed (defs : Table Definition) (ks : List String) (h : Settled defs ks) :
    ∀ k ∈ ks, k ≠ "__proto__" → ∃ d, ownGet defs.own k = some d ∧
      ∀ dep ∈ d.deps, ∃ s, dep = Val.str s ∧ (s ∈ ks ∨ s = "__proto__") := by
  induction h with
  | nil => intro k hk; cases hk
  | snoc ks k d _ _ hd hdeps ih =>
    intro k1 hk1 hkp
    rcases List.mem_append.1 hk1 with h1 | h1
    · obtain ⟨d1, hd1, hdeps1⟩ := ih k1 h1 hkp
      refine ⟨d1, hd1, ?_⟩
      intro dep hdep
      obtain ⟨s, hs, hin⟩ := hdeps1 dep hdep
      exact ⟨s, hs, hin.imp (List.mem_append_left _) id⟩
    · simp at h1
      subst h1
      refine ⟨d, hd, ?_⟩
      intro dep hdep
      obtain ⟨s, hs, hin⟩ := hdeps dep hdep
      exact ⟨s, hs, hin.imp (List.mem_append_left _) id⟩
  | proto ks _ ih =>
    intro k1 hk1 hkp
    rcases List.mem_append.1 hk1 with h1 | h1
    · obtain ⟨d1, hd1, hdeps1⟩ := ih k1 h1 hkp
      refine ⟨d1, hd1, ?_⟩
      intro dep hdep
      obtain ⟨s, hs, hin⟩ := hdeps1 dep hdep
      exact ⟨s, hs, hin.imp (List.mem_append_left _) id⟩
    · simp at h1
      exact absurd h1 hkp

/-- In a reachable registry every instantiated id other than `__proto__` has an
entry in the definition table, and each of its declared dependencies is a
string that is instantiated too or is `__proto__`. -/
theorem instances_closed (r : Registry) (hr : Reachable r) :
    ∀ k ∈ keys r.instances.own, k ≠ "__proto__" →
      ∃ d, ownGet r.definitions.own k = some d ∧
        ∀ dep ∈ d.deps, ∃ s, dep = Val.str s ∧
          (s ∈ keys r.instances.own ∨ s = "__proto__") :=
  settled_closed _ _ (reachable_inv r hr).2

theorem mem_keys_set {α : Type} (accepts isNull : α → Bool) (x : Table α) (id k : String)
    (v : α) (h : k ∈ keys x.own) : k ∈ keys (Table.set accepts isNull x id v).own := by
  rw [← ownGet_isSome_iff] at h ⊢
  rw [ownGet_set]
  split
  · exact h
  · split
    · rfl
    · exact h

theorem eval_calls {defs : Table Definition} (t : Task) (run : Run) (res : Res) (run1 : Run)
    (h : Eval defs t run res run1) :
    (∀ id stack r, t = .one id stack → res = .one r →
      contains stack id = false → (∀ t ∈ stack, ownGet run.table.own t = none) →
      ((∀ k ∈ run.calls, k = "__proto__" ∨ k ∈ keys run.table.own) ∧
        ∀ k, k ≠ "__proto__" → run.calls.count k ≤ 1) →
      ((∀ k ∈ run1.calls, k = "__proto__" ∨ k ∈ keys run1.table.own) ∧
        ∀ k, k ≠ "__proto__" → run1.calls.count k ≤ 1)) ∧
    (∀ deps stack r, t = .each deps stack → res = .each r →
      (∀ t ∈ stack, ownGet run.table.own t = none) →
      ((∀ k ∈ run.calls, k = "__proto__" ∨ k ∈ keys run.table.own) ∧
        ∀ k, k ≠ "__proto__" → run.calls.count k ≤ 1) →
      ((∀ k ∈ run1.calls, k = "__proto__" ∨ k ∈ keys run1.table.own) ∧
        ∀ k, k ≠ "__proto__" → run1.calls.count k ≤ 1)) := by
  refine Eval.induct2
    (fun id stack run _ run1 =>
      contains stack id = false → (∀ t ∈ stack, ownGet run.table.own t = none) →
      ((∀ k ∈ run.calls, k = "__proto__" ∨ k ∈ keys run.table.own) ∧
        ∀ k, k ≠ "__proto__" → run.calls.count k ≤ 1) →
      ((∀ k ∈ run1.calls, k = "__proto__" ∨ k ∈ keys run1.table.own) ∧
        ∀ k, k ≠ "__proto__" → run1.calls.count k ≤ 1))
    (fun _ stack run _ run1 =>
      (∀ t ∈ stack, ownGet run.table.own t = none) →
      ((∀ k ∈ run.calls, k = "__proto__" ∨ k ∈ keys run.table.own) ∧
        ∀ k, k ≠ "__proto__" → run.calls.count k ≤ 1) →
      ((∀ k ∈ run1.calls, k = "__proto__" ∨ k ∈ keys run1.table.own) ∧
        ∀ k, k ≠ "__proto__" → run1.calls.count k ≤ 1))
    ?_ ?_ ?_ ?_ ?_ ?_ ?_ ?_ ?_ ?_ ?_ t run res run1 h
  · intro id stack run _ _ _ hI; exact hI
  · intro s stack run v _ _ _ hI; exact hI
  · intro s stack run _ _ _ _ hI; exact hI
  · intro s stack run _ _ _ _ hI; exact hI
  · intro s stack run d e run1 hg hd _ ih _ hst hI
    refine ih ?_ hI
    intro t ht
    rcases List.mem_append.1 ht with h1 | h1
    · exact hst t h1
    · simp at h1
      subst h1
      exact hg
  · intro s stack run d vs run1 hg hd hsub ih _ hst hI
    have hall : ∀ t ∈ stack ++ [s], ownGet run.table.own t = none := by
      intro t ht
      rcases List.mem_append.1 ht with h1 | h1
      · exact hst t h1
      · simp at h1
        subst h1
        exact hg
    obtain ⟨hI1, hI2⟩ := ih hall hI
    have hfr := (eval_frame _ _ _ _ hsub).2 d.deps (stack ++ [s]) (.ok vs) rfl rfl hall
    have habs : ownGet run1.table.own s = none := hfr.1 s (by simp)
    simp only []
    constructor
    · intro k hk
      rcases List.mem_append.1 hk with h1 | h1
      · exact (hI1 k h1).imp id (mem_keys_set _ _ _ _ _ _)
      · simp at h1
        subst h1
        by_cases hp : k = "__proto__"
        · exact Or.inl hp
        · right
          rw [← ownGet_isSome_iff, ownGet_set_self _ _ _ _ _ hp]
          rfl
    · intro k hk
      rw [List.count_append]
      by_cases hks : k = s
      · subst hks
        have hnot : k ∉ run1.calls := by
          intro hin
          rcases hI1 k hin with h1 | h1
          · exact hk h1
          · exact (ownGet_eq_none_iff _ _).1 habs h1
        rw [List.count_eq_zero_of_not_mem hnot]
        simp
      · have : List.count k [s] = 0 := by
          apply List.count_eq_zero_of_not_mem
          simp [hks]
        rw [this]
        exact hI2 k hk
  · intro stack run _ hI; exact hI
  · intro depId rest stack run _ _ hI; exact hI
  · intro depId rest stack run e run1 hc _ ih hst hI
    exact ih hc hst hI
  · intro depId rest stack run v run1 e run2 hc hsub1 _ ih1 ih2 hst hI
    have f1 := (eval_frame _ _ _ _ hsub1).1 depId stack (.ok v) rfl rfl hc hst
    exact ih2 f1.1 (ih1 hc hst hI)
  · intro depId rest stack run v run1 vs run2 hc hsub1 _ ih1 ih2 hst hI
    have f1 := (eval_frame _ _ _ _ hsub1).1 depId stack (.ok v) rfl rfl hc hst
    exact ih2 f1.1 (ih1 hc hst hI)

/-- In a reachable registry the factory of every id other than `__proto__` has
been invoked at most once, and only for ids that are instantiated. -/
theorem factories_run_once (r : Registry) (hr : Reachable r) :
    (∀ k ∈ r.calls, k = "__proto__" ∨ k ∈ keys r.instances.own) ∧
    ∀ k, k ≠ "__proto__" → r.calls.count k ≤ 1 := by
  induction hr with
  | create => simp [create]
  | define r id deps defn _ ih =>
    obtain ⟨h1, h2, _, _⟩ := define_definitions r id deps defn
    rw [h1, h2]
    exact ih
  | require r id out _ hreq ih =>
    obtain ⟨run1, hev, hreg, _⟩ := require_eval r id out hreq
    rw [hreg]
    exact (eval_calls _ _ _ _ hev).1 id [] out.result rfl rfl
      (by cases id <;> simp [contains]) (by simp) ih

/-! ## Behaviour on graphs of own entries

The facts of this section hold for ids whose definition is an own property of
`definitions`.  An id defined as `__proto__` never is one. -/

/-- On a reachable registry whose instance table is empty, for an id below
which every id is an own entry of `definitions` and no dependency chain comes
back to an id, `require(id)` returns the result of one invocation of the factory
of `id` on the values `vs`, one per declared dependency and in declared order,
each being the value that `require` of that dependency returns. -/
theorem own_graph_builds_from_deps (r : Registry) (hr : Reachable r)
    (hempty : r.instances.own = []) (id : String)
    (hfd : FullyDefined r.definitions (.str id)) (hac : Acyclic r.definitions (.str id)) :
    ∃ d vs serial out, ownGet r.definitions.own id = some d ∧
      require r (.str id) none = some out ∧ out.result = .ok (d.fn serial vs) ∧
      List.Forall₂ (fun dep v => require out.registry dep none = some ⟨.ok v, out.registry, none⟩)
        d.deps vs := by
  obtain ⟨out, ho⟩ := require_isSome r (.str id) none
  obtain ⟨run1, hev, hreg, _⟩ := require_eval r (.str id) out ho
  obtain ⟨d0, hown⟩ := fullyDefined_own hfd
  have hinv := reachable_inv r hr
  cases hres : out.result with
  | error e =>
    exfalso
    obtain ⟨dep, stk, _, h2, h3⟩ := (eval_fullyDefined _ _ _ _ hev).1 (.str id) [] out.result
      rfl rfl hfd (by simp) e hres
    exact hac dep h2 h3
  | ok v =>
    rw [hres] at hev
    cases hev with
    | memo _ _ _ _ hg =>
      simp [hempty, ownGet] at hg
    | build _ _ _ d vs run0 hg hd hsub =>
      have hdd : d0 = d := by
        rw [getDef_of_own _ _ _ hown] at hd
        exact Found.record.inj hd
      subst hdd
      have hall : ∀ t ∈ [] ++ [id], ownGet (Run.mk r.instances r.calls).table.own t = none := by
        intro t ht
        simp at ht
        subst ht
        exact hg
      have hfr := (eval_frame _ _ _ _ hsub).2 d0.deps ([] ++ [id]) (.ok vs) rfl rfl hall
      have hst := forall₂_with_mem
        (eval_each_stored _ _ _ _ hsub d0.deps ([] ++ [id]) vs rfl rfl hall)
      refine ⟨d0, vs, run0.calls.length, out, hown, ho, hres, ?_⟩
      refine List.Forall₂.imp ?_ hst
      intro dep w hdw
      obtain ⟨hmem, s, hs, hstored⟩ := hdw
      subst hs
      have hdepfd : FullyDefined r.definitions (.str s) :=
        fullyDefined_of_reaches hfd (Relation.ReflTransGen.single ⟨id, d0, rfl, hown, hmem⟩)
      obtain ⟨d1, hown1⟩ := fullyDefined_own hdepfd
      have hsp : s ≠ "__proto__" := by
        intro h
        apply hinv.1
        rw [← h]
        apply (ownGet_isSome_iff _ _).1
        simp [hown1]
      have hin0 : ownGet run0.table.own s = some w := by
        rcases hstored with h1 | h1
        · exact h1
        · exact absurd h1 hsp
      have hne : id ≠ s := by
        intro h
        subst h
        rw [hfr.1 id (by simp)] at hin0
        cases hin0
      apply require_memo
      rw [hreg]
      simp only []
      rw [ownGet_set_of_ne _ _ _ _ _ _ hne]
      exact hin0

/-- The preceding fact on the diamond `registryABC`: the factory of `c`
receives the values of `a` and `b` in that order. -/
theorem own_graph_builds_from_deps_example :
    (∃ d vs serial out, ownGet registryABC.definitions.own "c" = some d ∧
      require registryABC (.str "c") none = some out ∧ out.result = .ok (d.fn serial vs) ∧
      List.Forall₂ (fun dep v => require out.registry dep none = some ⟨.ok v, out.registry, none⟩)
        d.deps vs) ∧
    (require registryABC (.str "c") none).map (fun o => (o.result, o.registry.instances.own))
      = some (.ok (.num 331), [("a", .num 1), ("b", .num 21), ("c", .num 331)]) :=
  ⟨own_graph_builds_from_deps registryABC reachable_registryABC rfl "c"
    (fullyDefined_of_closedUnder registryABC.definitions ["a", "b", "c"] rfl "c" (by decide))
    (acyclic_of_inOrder registryABC.definitions ["a", "b", "c"] (by decide) rfl "c" (by decide)
      (fullyDefined_of_closedUnder registryABC.definitions ["a", "b", "c"] rfl "c" (by decide))),
    rfl⟩

/-- On a reachable registry, for an id below which every id is an own entry of
`definitions`, `require(id)` returns or throws; it throws `CircularDependency`
exactly when some dependency chain from `id` comes back to an id it has
visited; and without such a chain it succeeds, however many paths lead to an
id. -/
theorem own_graph_circular_iff (r : Registry) (hr : Reachable r) (id : String)
    (hfd : FullyDefined r.definitions (.str id)) :
    ∃ out, require r (.str id) none = some out ∧
      ((∃ t dep stk, out.result = .error t ∧ t.err = .circularDependency dep stk) ↔
        ∃ y, Reaches r.definitions (.str id) y ∧ OnCycle r.definitions y) ∧
      (Acyclic r.definitions (.str id) → ∃ v, out.result = .ok v) := by
  obtain ⟨out, ho⟩ := require_isSome r (.str id) none
  obtain ⟨run1, hev, hreg, _⟩ := require_eval r (.str id) out ho
  have herr := (eval_fullyDefined _ _ _ _ hev).1 (.str id) [] out.result rfl rfl hfd (by simp)
  refine ⟨out, ho, ⟨?_, ?_⟩, ?_⟩
  · rintro ⟨t, dep, stk, h1, _⟩
    obtain ⟨dep2, _, _, h2, h3⟩ := herr t h1
    exact ⟨dep2, h2, h3⟩
  · rintro ⟨y, hy, hcyc⟩
    cases hres : out.result with
    | error e =>
      obtain ⟨dep, stk, h1, _, _⟩ := herr e hres
      exact ⟨e, dep, stk, rfl, h1⟩
    | ok v =>
      exfalso
      rw [hres] at hev
      obtain ⟨s, hs, hstored⟩ := eval_ok_stored _ _ _ _ _ hev
      cases hs
      obtain ⟨d0, hown⟩ := fullyDefined_own hfd
      have hinv := reachable_inv r hr
      have hinv2 := reachable_inv out.registry (Reachable.require r (.str id) out hr ho)
      rw [hreg] at hinv2
      have hin : id ∈ keys run1.table.own := by
        rcases hstored with h1 | h1
        · apply (ownGet_isSome_iff _ _).1
          simp [h1]
        · exfalso
          apply hinv.1
          rw [← h1]
          apply (ownGet_isSome_iff _ _).1
          simp [hown]
      exact (settled_reach r.definitions hinv.1 _ hinv2.2 id hin hfd y hy).2 hcyc
  · intro hac
    cases hres : out.result with
    | error e =>
      exfalso
      obtain ⟨dep, _, _, h2, h3⟩ := herr e hres
      exact hac dep h2 h3
    | ok v => exact ⟨v, rfl⟩

/-- The preceding fact on two examples: the diamond `registryABC` at `c`, and
the cycle `registryXY` at `x`. -/
theorem own_graph_circular_iff_example :
    (∃ out, require registryABC (.str "c") none = some out ∧
      ((∃ t dep stk, out.result = .error t ∧ t.err = .circularDependency dep stk) ↔
        ∃ y, Reaches registryABC.definitions (.str "c") y ∧ OnCycle registryABC.definitions y) ∧
      (Acyclic registryABC.definitions (.str "c") → ∃ v, out.result = .ok v)) ∧
    (∃ out, require registryXY (.str "x") none = some out ∧
      ((∃ t dep stk, out.result = .error t ∧ t.err = .circularDependency dep stk) ↔
        ∃ y, Reaches registryXY.definitions (.str "x") y ∧ OnCycle registryXY.definitions y) ∧
      (Acyclic registryXY.definitions (.str "x") → ∃ v, out.result = .ok v)) :=
  ⟨own_graph_circular_iff registryABC reachable_registryABC "c"
      (fullyDefined_of_closedUnder registryABC.definitions ["a", "b", "c"] rfl "c" (by decide)),
    own_graph_circular_iff registryXY reachable_registryXY "x"
      (fullyDefined_of_closedUnder registryXY.definitions ["x", "y"] rfl "x" (by decide))⟩

/-- A `define` of an id that is an own property of `definitions` throws
`DuplicateId` and returns the registry as it was, so every later `require`
behaves as if the second `define` had not been made. -/
theorem own_entry_define_duplicate (r : Registry) (s : String) (deps : DepsArg) (defn : DefArg)
    (h : has r.definitions s = true) :
    define r (.str s) deps defn = (.error (.duplicateId s), r) ∧
    ∀ id fakes, require (define r (.str s) deps defn).2 id fakes = require r id fakes := by
  have h1 : define r (.str s) deps defn = (.error (.duplicateId s), r) := by
    simp [define, h]
  exact ⟨h1, fun id fakes => by rw [h1]⟩

/-- The preceding fact on an example: `a` is an own entry in `registryABC`. -/
theorem own_entry_define_duplicate_example :
    has registryABC.definitions "a" = true ∧
    define registryABC (.str "a") (.array [.str "b"]) (.value (.num 7))
      = (.error (.duplicateId "a"), registryABC) ∧
    ∀ id fakes, require (define registryABC (.str "a") (.array [.str "b"]) (.value (.num 7))).2
      id fakes = require registryABC id fakes :=
  ⟨rfl, own_entry_define_duplicate registryABC "a" (.array [.str "b"]) (.value (.num 7)) rfl⟩

/-- When `state()` succeeds, then for all ids `x` and `y` that are own entries
of `definitions`, `x` is in the `reqd` of the record of `y` exactly when `y` is
in the `reqs` of the record of `x`; and no record has its own id in its
`reqd`. -/
theorem own_entries_reqd_inverse (r : Registry) (res : List (String × Info))
    (h : state r = some (.ok res)) :
    (∀ x y, has r.definitions x = true → has r.definitions y = true →
      ((∃ iy, ownGet res y = some iy ∧ x ∈ iy.reqd) ↔
        (∃ ix, ownGet res x = some ix ∧ Val.str y ∈ ix.reqs))) ∧
    (∀ x ix, ownGet res x = some ix → x ∉ ix.reqd) := by
  obtain ⟨fw, hfw, hres⟩ := state_eq r res h
  have hspec := stateForward_spec r _ fw hfw
  have hkeys := forall₂_keys r _ fw hspec
  subst hres
  constructor
  · intro x y _ hy
    simp only [ownGet_map_info, Option.map_eq_some']
    constructor
    · rintro ⟨iy, ⟨fy, _, rfl⟩, hx⟩
      obtain ⟨_, fx, hfx, hyx⟩ := (mem_inverse _ _ _ _).1 hx
      exact ⟨_, ⟨fx, hfx, rfl⟩, hyx⟩
    · rintro ⟨ix, ⟨fx, hfx, rfl⟩, hyx⟩
      have hxk : x ∈ keys (eachDefinition r.definitions) := by
        rw [← hkeys]
        apply (ownGet_isSome_iff _ _).1
        simp [hfx]
      have hlen : has r.definitions "length" = false := by
        cases hl : has r.definitions "length" with
        | false => rfl
        | true => simp [eachDefinition, hl, keys] at hxk
      have hyk : y ∈ keys fw := by
        rw [hkeys]
        simp only [eachDefinition, hlen, Bool.false_eq_true, if_false]
        exact (keys_objectEntries _ _).2 ((has_eq_true_iff _ _).1 hy)
      have hsome : (ownGet fw y).isSome = true := (ownGet_isSome_iff _ _).2 hyk
      cases hg : ownGet fw y with
      | none => simp [hg] at hsome
      | some fy =>
        exact ⟨_, ⟨fy, rfl, rfl⟩, (mem_inverse _ _ _ _).2 ⟨hxk, fx, hfx, hyx⟩⟩
  · intro x ix hix hmem
    rw [ownGet_map_info] at hix
    obtain ⟨fx, hfx, rfl⟩ := Option.map_eq_some'.1 hix
    obtain ⟨_, fx2, hfx2, hxx⟩ := (mem_inverse _ _ _ _).1 hmem
    rw [hfx] at hfx2
    cases hfx2
    obtain ⟨e, _, he⟩ := forall₂_exists_of_mem_right hspec (x, fx) (ownGet_mem _ _ _ hfx)
    have hreq : requireDepIds r (.str e.1) = some (.ok fx.reqs) := he.2.2.1
    have hex : x = e.1 := he.1
    rw [← hex] at hreq
    have hl := resolveDepIds_sound _ _ _ _ _ hreq
    exact ((idList_avoids_stack _ _ hl).1 _ _ rfl x hxx).2 rfl

/-- The preceding fact on `registryABC`: the `reqd` of `a` is `[b, c]`, that of
`b` is `[c]`. -/
theorem own_entries_reqd_inverse_example :
    state registryABC = some (.ok stateABC) ∧
    (∀ x y, has registryABC.definitions x = true → has registryABC.definitions y = true →
      ((∃ iy, ownGet stateABC y = some iy ∧ x ∈ iy.reqd) ↔
        (∃ ix, ownGet stateABC x = some ix ∧ Val.str y ∈ ix.reqs))) ∧
    (∀ x ix, ownGet stateABC x = some ix → x ∉ ix.reqd) :=
  ⟨rfl, own_entries_reqd_inverse registryABC stateABC rfl⟩

/-- On a reachable registry, the two-argument `define(id, def)` of a new id
succeeds and makes `definitions[id]` a record with an empty dependency list
whose factory is `def` itself when `def` is a function and the constant
function of `def` otherwise; and for an id other than `__proto__`, whenever
`require(id)` succeeds for an id with a record, the value is the result of an
invocation of that record's factory, so it is `def` itself for a definition that
is not a function. -/
theorem define2_registers_bare_value (r : Registry) (hr : Reachable r) (s : String) :
    (∀ defn, has r.definitions s = false →
      (define2 r (.str s) defn).1 = .ok () ∧
      ∃ d, getDef (define2 r (.str s) defn).2.definitions s = .record d ∧ d.deps = [] ∧
        (∀ f, defn = .function f → d.fn = f) ∧
        (∀ v, defn = .value v → d.fn = fun _ _ => v)) ∧
    (∀ d out w, s ≠ "__proto__" → getDef r.definitions s = .record d →
      require r (.str s) none = some out → out.result = .ok w →
      (∃ serial args, w = d.fn serial args) ∧ (∀ v, d.fn = (fun _ _ => v) → w = v)) := by
  constructor
  · intro defn hnew
    exact getDef_after_define r s [] defn hnew
  · intro d out w hsp hd hreq hres
    have hcall : ∃ serial args, w = d.fn serial args := by
      obtain ⟨run1, hev, _, _⟩ := require_eval r (.str s) out hreq
      rw [hres] at hev
      cases hev with
      | memo _ _ _ _ hg =>
        obtain ⟨d1, serial, args, hd1, hw⟩ :=
          reachable_built r hr s w (ownGet_mem _ _ _ hg) hsp
        rw [getDef_of_own _ _ _ hd1] at hd
        have hdd : d1 = d := Found.record.inj hd
        rw [hdd] at hw
        exact ⟨serial, args, hw⟩
      | build _ _ _ d0 vs run0 _ hd0 _ =>
        rw [hd0] at hd
        have hdd : d0 = d := Found.record.inj hd
        rw [hdd]
        exact ⟨_, _, rfl⟩
    refine ⟨hcall, ?_⟩
    intro v hv
    obtain ⟨serial, args, hw⟩ := hcall
    rw [hw, hv]

/-- The preceding fact on an example: the two-argument `define('v', 7)` on a
fresh registry registers `v` without dependencies, and `require('v')` then
returns 7. -/
theorem define2_registers_bare_value_example :
    (require registryBare (.str "v") none).map (fun o => o.result) = some (.ok (.num 7)) ∧
    (∀ defn, has create.definitions "v" = false →
      (define2 create (.str "v") defn).1 = .ok () ∧
      ∃ d, getDef (define2 create (.str "v") defn).2.definitions "v" = .record d ∧
        d.deps = [] ∧ (∀ f, defn = .function f → d.fn = f) ∧
        (∀ v, defn = .value v → d.fn = fun _ _ => v)) ∧
    (∀ d out w, "v" ≠ "__proto__" → getDef registryBare.definitions "v" = .record d →
      require registryBare (.str "v") none = some out → out.result = .ok w →
      (∃ serial args, w = d.fn serial args) ∧ (∀ v, d.fn = (fun _ _ => v) → w = v)) :=
  ⟨rfl, (define2_registers_bare_value create Reachable.create "v").1,
    (define2_registers_bare_value registryBare (Reachable.define _ _ _ _ Reachable.create) "v").2⟩

/-- The resolution stack of the frame of `require` that throws, for an
exception raised by `assert`: pairwise distinct ids, each with a record. -/
theorem require_thrown_stack (r : Registry) (id : Val) (fakes : Option (Table Val))
    (out : Outcome) (t : Thrown) (h : require r id fakes = some out)
    (hres : out.result = .error t) (hne : t.err ≠ .typeError) :
    Recorded r.definitions t.stack := by
  have hrec : Recorded r.definitions [] := ⟨List.nodup_nil, by simp⟩
  have hc : contains [] id = false := by cases id <;> simp [contains]
  cases fakes with
  | none =>
    obtain ⟨run1, hev, _, _⟩ := require_eval r id out h
    exact (eval_thrown_stack _ _ _ _ hev).1 id [] out.result rfl rfl hc hrec t hres hne
  | some f =>
    obtain ⟨run1, hev, _, _⟩ := require_fakes_eval r id f out h
    exact (eval_thrown_stack _ _ _ _ hev).1 id [] out.result rfl rfl hc hrec t hres hne

theorem recorded_defined (defs : Table Definition) (stack : List String)
    (h : Recorded defs stack) :
    stack.Nodup ∧ (∀ s ∈ stack, s ∈ recordIds defs) ∧ stack.length ≤ definedCount defs := by
  refine ⟨h.1, ?_, recorded_length defs stack h⟩
  intro s hs
  obtain ⟨d, hd⟩ := h.2 s hs
  exact getDef_record_ids defs s d hd

/-! ## Claims -/

/-- C1, at a failing input: after `define('__proto__', [], function () { return {}; })`
the call `require('__proto__')` succeeds, and the immediately following
`require('__proto__')` runs the factory again and returns another reference,
because the assignment of line 135 to the key `__proto__` stores no own property. -/
theorem require_proto_not_memoised :
    (require registryProto (.str "__proto__") none).map (fun o => (o.result, has o.registry.instances "__proto__", o.registry.calls))
      = some (.ok (.obj 0), false, ["__proto__"]) ∧
    ((require registryProto (.str "__proto__") none).bind
        (fun o => require o.registry (.str "__proto__") none)).map
        (fun o => (o.result, o.registry.calls))
      = some (.ok (.obj 1), ["__proto__", "__proto__"]) :=
  ⟨rfl, rfl⟩

/-- C2, at a failing input: after `define('__proto__', [], function () { return {}; })`
and `define('u', ['__proto__', '__proto__'], function (p, q) { return p === q; })`,
on an empty instance table, `require('u')` succeeds with `false`: the factory of
`u` receives two different objects for its two dependencies, although both are
the id `__proto__`; and the value that `require('__proto__')` returns afterwards
is yet another object.  The factory of `__proto__` runs for each of them,
because the assignment of line 135 to the key `__proto__` stores no own
property. -/
theorem require_proto_arguments_differ :
    (define registryProto (.str "u") (.array [.str "__proto__", .str "__proto__"])
      (.function identical)).1 = .ok () ∧
    registryProtoPair.instances.own = [] ∧
    declaredDeps registryProtoPair.definitions "u" = some [.str "__proto__", .str "__proto__"] ∧
    (require registryProtoPair (.str "__proto__") none).map (fun o => o.result)
      = some (.ok (.obj 0)) ∧
    (require registryProtoPair (.str "u") none).map (fun o => (o.result, o.registry.calls))
      = some (.ok (.bool false), ["__proto__", "__proto__", "u"]) ∧
    ((require registryProtoPair (.str "u") none).bind
        (fun o => require o.registry (.str "__proto__") none)).map (fun o => o.result)
      = some (.ok (.obj 3)) :=
  ⟨rfl, rfl, rfl, rfl, rfl, rfl⟩

/-- C3, at a failing input: after `define('__proto__', [], function () { return {}; })`,
`define('u', ['__proto__'], ..)` and a successful `require('u')`, the call
`define('__proto__', ['u'], ..)` is accepted, so that `u` depends on `__proto__`
and `__proto__` on `u`; `require('u')` then still succeeds, from the memo, while
the id-list resolution of `u` throws `CircularDependency` naming `u`. -/
theorem require_misses_proto_cycle :
    (require registryProtoCycle (.str "u") none).map
        (fun o => (o.result,
          (define o.registry (.str "__proto__") (.array [.str "u"]) (.function (digits 2))).1))
      = some (.ok (.num 10), .ok ()) ∧
    (require registryProtoCycle (.str "u") none).map
        (fun o =>
          (declaredDeps (define o.registry (.str "__proto__") (.array [.str "u"])
              (.function (digits 2))).2.definitions "u",
            declaredDeps (define o.registry (.str "__proto__") (.array [.str "u"])
              (.function (digits 2))).2.definitions "__proto__"))
      = some (some [.str "__proto__"], some [.str "u"]) ∧
    ((require registryProtoCycle (.str "u") none).bind
        (fun o => require (define o.registry (.str "__proto__") (.array [.str "u"])
          (.function (digits 2))).2 (.str "u") none)).map (fun o => o.result)
      = some (.ok (.num 10)) ∧
    (require registryProtoCycle (.str "u") none).bind
        (fun o => requireDepIds (define o.registry (.str "__proto__") (.array [.str "u"])
          (.function (digits 2))).2 (.str "u"))
      = some (.error ⟨.circularDependency (.str "u") ["u", "__proto__"], ["u", "__proto__"]⟩) :=
  ⟨rfl, rfl, rfl, rfl⟩

/-- C4: when `require(id)` without fakes throws `CircularDependency` or
`UndefinedId`, no id of the resolution stack of the throwing frame, and not `id`
itself, is an own property of `instances` afterwards. -/
theorem require_failure_not_memoised (r : Registry) (id : Val) (out : Outcome) (t : Thrown)
    (h : require r id none = some out) (hres : out.result = .error t)
    (_hkind : (∃ dep stk, t.err = .circularDependency dep stk) ∨ (∃ q, t.err = .undefinedId q)) :
    (∀ s ∈ t.stack, has out.registry.instances s = false) ∧
    (∀ s, id = .str s → has out.registry.instances s = false) := by
  obtain ⟨run1, hev, hreg, _⟩ := require_eval r id out h
  have hf := (eval_frame _ _ _ _ hev).1 id [] out.result rfl rfl
    (by cases id <;> simp [contains]) (by simp)
  obtain ⟨_, _, h3⟩ := hf
  obtain ⟨a, b⟩ := h3 t hres
  rw [hreg]
  constructor
  · intro s hs
    exact (has_eq_false_iff _ _).2 (a s hs)
  · intro s hs
    exact (has_eq_false_iff _ _).2 (b s hs)

/-- C4 on the example of the claim: with `x` depending on `y` and `y` on `x`,
`require('x')` throws `CircularDependency` and neither id has an instance. -/
theorem require_failure_not_memoised_witness :
    require registryXY (.str "x") none
      = some ⟨.error ⟨.circularDependency (.str "x") ["x", "y"], ["x", "y"]⟩, registryXY, none⟩ ∧
    (∀ s ∈ ["x", "y"], has registryXY.instances s = false) ∧
    (∀ s, Val.str "x" = .str s → has registryXY.instances s = false) :=
  ⟨rfl, require_failure_not_memoised registryXY (.str "x")
    ⟨.error ⟨.circularDependency (.str "x") ["x", "y"], ["x", "y"]⟩, registryXY, none⟩
    ⟨.circularDependency (.str "x") ["x", "y"], ["x", "y"]⟩ rfl rfl
    (Or.inl ⟨_, _, rfl⟩)⟩

/-- C5, at a failing input: `toString` has no definition and no instance, yet
`require('toString')` on a fresh registry does not throw `UndefinedId`: the read
`definitions[id]` of line 104 finds `Object.prototype.toString`, the assertion of
line 105 passes, and line 134 throws a `TypeError`.  The same happens when
`toString` is a declared dependency. -/
theorem require_toString_typeError :
    (require create (.str "toString") none).map (fun o => o.result)
      = some (.error ⟨.typeError, ["toString"]⟩) ∧
    has create.definitions "toString" = false ∧
    (require (define create (.str "p") (.array [.str "toString"]) (.function (digits 1))).2
        (.str "p") none).map (fun o => o.result)
      = some (.error ⟨.typeError, ["p", "toString"]⟩) :=
  ⟨rfl, rfl, rfl⟩

/-- C6, at a failing input: after `define('__proto__', [], 1)`, which
succeeds and after which `require('__proto__')` returns 1, the call
`define('__proto__', [], 2)` does not throw `DuplicateId`: it returns normally
and replaces the definition, so that `require('__proto__')` returns 2.  The
check of line 150 uses `has`, and the assignment of line 154 to the key
`__proto__` creates no own property. -/
theorem define_proto_twice_replaces :
    (define create (.str "__proto__") (.array []) (.value (.num 1))).1 = .ok () ∧
    (require registryProtoOne (.str "__proto__") none).map (fun o => o.result)
      = some (.ok (.num 1)) ∧
    (define registryProtoOne (.str "__proto__") (.array []) (.value (.num 2))).1 = .ok () ∧
    (require (define registryProtoOne (.str "__proto__") (.array []) (.value (.num 2))).2
        (.str "__proto__") none).map (fun o => o.result)
      = some (.ok (.num 2)) :=
  ⟨rfl, rfl, rfl, rfl⟩

/-- C7, at a failing input: `define('__proto__', [], f)` on a fresh registry
passes the three checks and returns normally, but the assignment of line 154
runs the inherited `__proto__` setter: `definitions` has no own entry
afterwards, `has(definitions, '__proto__')` stays false, and a second `define`
of the same id is accepted as well. -/
theorem define_proto_adds_no_entry :
    (define create (.str "__proto__") (.array []) (.function allocate)).1 = .ok () ∧
    keys registryProto.definitions.own = [] ∧
    has registryProto.definitions "__proto__" = false ∧
    (define registryProto (.str "__proto__") (.array []) (.value (.num 1))).1 = .ok () :=
  ⟨rfl, rfl, rfl, rfl⟩

/-- C8, at a failing input: after `define('x', ['__proto__', '__proto__'], f)`
the id-list resolution `resolve('x', true)` succeeds and returns `__proto__`
twice: `definitions['__proto__']` is truthy, and `uniq` never records the key
`__proto__` in `elements`. -/
theorem resolveDepIds_duplicate :
    requireDepIds registryTwice (.str "x") = some (.ok [.str "__proto__", .str "__proto__"]) :=
  rfl

/-- C9: `require(id, fakes)` returns or throws, and in both cases leaves
`instances` and `definitions` as they were; every own entry of `fakes` is still
there with its value afterwards. -/
theorem require_fakes_frame (r : Registry) (id : Val) (fakes : Table Val) :
    ∃ out after, require r id (some fakes) = some out ∧
      out.registry.instances = r.instances ∧ out.registry.definitions = r.definitions ∧
      out.fakes = some after ∧
      ∀ k v, ownGet fakes.own k = some v → ownGet after.own k = some v := by
  obtain ⟨out, ho⟩ := require_isSome r id (some fakes)
  obtain ⟨run1, hev, hreg, hfk⟩ := require_fakes_eval r id fakes out ho
  have hf := (eval_frame _ _ _ _ hev).1 id [] out.result rfl rfl
    (by cases id <;> simp [contains]) (by simp)
  refine ⟨out, run1.table, ho, ?_, ?_, hfk, hf.2.1⟩
  · rw [hreg]
  · rw [hreg]

/-- C10, at a failing input: after `define('__proto__', [], 1)` the call
`require('__proto__', {})` succeeds with the constructed value `1`, but the
override map has no entry for `__proto__` afterwards. -/
theorem require_fakes_proto_not_stored :
    (require (define create (.str "__proto__") (.array []) (.value (.num 1))).2
        (.str "__proto__") (some Table.empty)).map
      (fun o => (o.result, o.fakes.map (fun f => (keys f.own, has f "__proto__"))))
      = some (.ok (.num 1), some ([], false)) :=
  rfl

/-- C11, at a failing input: after `define('__proto__', [], 1)` and
`define('a', ['__proto__'], ..)`, both of which succeed, `state()` succeeds and
the `reqs` of `a` hold `__proto__`, but the result has no record for
`__proto__`, hence none whose `reqd` holds `a`: `each` delivers the own keys of
`definitions` only, and `__proto__` is not one. -/
theorem state_proto_without_inverse :
    (define create (.str "__proto__") (.array []) (.value (.num 1))).1 = .ok () ∧
    (define registryProtoOne (.str "a") (.array [.str "__proto__"])
      (.function (digits 1))).1 = .ok () ∧
    declaredDeps registryProtoA.definitions "__proto__" = some [] ∧
    state registryProtoA
      = some (.ok [("a", ⟨[.str "__proto__"], [.str "__proto__"], false, []⟩)]) :=
  ⟨rfl, rfl, rfl, rfl⟩

/-- C12, at a failing input: after `define('a', [], ..)` and
`define('length', ['a'], ..)` the definition table has the two ids, yet
`state()` succeeds with no record at all: `each` (lines 37-47) sees
`definitions.length`, takes `definitions` for an array and runs
`Array.prototype.forEach`, for which a definition record is the length 0. -/
theorem state_length_no_records :
    keys registryLength.definitions.own = ["a", "length"] ∧
    (state registryLength).map (fun x => x.map fun l => keys l) = some (.ok []) :=
  ⟨rfl, rfl⟩

/-- C13, at a failing input: after the two-argument `define('__proto__', null)`
two calls of `require('__proto__')` return `null`; the first makes `null` the
prototype of `instances`, so that the second stores `null` as an own property
`__proto__`.  The two-argument `define('__proto__', 7)` is then accepted and
`definitions['__proto__']` is its record, with no dependencies; yet
`require('__proto__')` returns the stored `null`, not 7, and the factory is not
invoked. -/
theorem require_bare_proto_stale :
    (define2 create (.str "__proto__") (.value .null)).1 = .ok () ∧
    (require registryNullProto (.str "__proto__") none).map
        (fun o => (o.result, o.registry.instances.own, o.registry.instances.proto))
      = some (.ok .null, [], some .null) ∧
    ((require registryNullProto (.str "__proto__") none).bind
        (fun o1 => require o1.registry (.str "__proto__") none)).map
        (fun o => (o.result, o.registry.instances.own,
          (define2 o.registry (.str "__proto__") (.value (.num 7))).1,
          declaredDeps (define2 o.registry (.str "__proto__") (.value (.num 7))).2.definitions
            "__proto__"))
      = some (.ok .null, [("__proto__", .null)], .ok (), some []) ∧
    ((require registryNullProto (.str "__proto__") none).bind
        (fun o1 => (require o1.registry (.str "__proto__") none).bind
          (fun o2 => require (define2 o2.registry (.str "__proto__") (.value (.num 7))).2
            (.str "__proto__") none))).map (fun o => (o.result, o.registry.calls))
      = some (.ok .null, ["__proto__", "__proto__"]) :=
  ⟨rfl, rfl, rfl, rfl⟩

/-- C14, at a failing input: on a fresh registry value mode fails for
`toString` (with a `TypeError`) while id-list mode succeeds with `[]`: both read
`Object.prototype.toString` at line 104, and only value mode applies `def.fn`. -/
theorem modes_differ_on_toString :
    (require create (.str "toString") none).map (fun o => o.result)
      = some (.error ⟨.typeError, ["toString"]⟩) ∧
    requireDepIds create (.str "toString") = some (.ok []) :=
  ⟨rfl, rfl⟩

/-- C15, at a failing input: after `define('__proto__', [], function () { return {}; })`
and `define('u', ['__proto__', '__proto__'], ..)` a single `require('u')` invokes
the factory of `__proto__` twice, and a second `require('__proto__')` a third
time. -/
theorem factory_of_proto_runs_again :
    (require registryProtoUser (.str "u") none).map (fun o => (o.registry.calls))
      = some ["__proto__", "__proto__", "u"] ∧
    ((require registryProtoUser (.str "u") none).bind
        (fun o => require o.registry (.str "__proto__") none)).map (fun o => o.registry.calls)
      = some ["__proto__", "__proto__", "u", "__proto__"] :=
  ⟨rfl, rfl⟩

/-- C16, counterexample to the bound as stated: in `registryABQ` (`a: [b]`,
`b: [q]`, `q` undefined) two ids are defined, and in both modes two nested calls
of `resolve` do not finish the resolution of `a` while three do, the innermost
being the call for `q`; and after `define('x', ['toString'], ..)` the stack of
the frame of `require('x')` that throws holds `toString`, which is not
defined. -/
theorem resolve_depth_exceeds_defined :
    keys registryABQ.definitions.own = ["a", "b"] ∧
    definedCount registryABQ.definitions = 2 ∧
    (resolve registryABQ.definitions 2 (.str "a") [] ⟨registryABQ.instances, []⟩).map
        (fun o => o.1) = none ∧
    (resolve registryABQ.definitions 3 (.str "a") [] ⟨registryABQ.instances, []⟩).map
        (fun o => o.1) = some (.error ⟨.undefinedId "q", ["a", "b"]⟩) ∧
    resolveDepIds registryABQ.definitions 2 (.str "a") [] = none ∧
    resolveDepIds registryABQ.definitions 3 (.str "a") []
      = some (.error ⟨.undefinedId "q", ["a", "b"]⟩) ∧
    keys registryToStringUser.definitions.own = ["x"] ∧
    has registryToStringUser.definitions "toString" = false ∧
    (require registryToStringUser (.str "x") none).map (fun o => o.result)
      = some (.error ⟨.typeError, ["x", "toString"]⟩) :=
  ⟨rfl, rfl, rfl, rfl, rfl, rfl, rfl, rfl, rfl⟩

/-- C16, amended: for every registry, every id and every override map,
`resolve` started on an empty stack ends with a value or an exception in both
modes.  A budget of one nested call more than there are defined ids (a defined
`__proto__` counted) is never exhausted and gives the outcome of `require`, so
the calls of `resolve` are never nested deeper than that.  Every call of
`resolve` that the resolution can lead to is entered with a stack of pairwise
distinct defined ids that does not hold the id of the call, hence with no more
ids than are defined; and when `InvalidId`, `UndefinedId` or
`CircularDependency` is thrown, the stack of the frame that throws is such a
stack. -/
theorem resolve_depth_bounded (r : Registry) (id : Val) (fakes : Option (Table Val)) :
    (∃ out, require r id fakes = some out) ∧
    (∃ res, requireDepIds r id = some res) ∧
    (∀ n run, definedCount r.definitions + 1 ≤ n →
      ∃ out, resolve r.definitions n id [] run = some out ∧
        resolve r.definitions (fuelFor r.definitions) id [] run = some out) ∧
    (∀ n, definedCount r.definitions + 1 ≤ n →
      ∃ res, resolveDepIds r.definitions n id [] = some res ∧ requireDepIds r id = some res) ∧
    (∀ id1 stack1, Visits r.definitions (.one id []) id1 stack1 →
      contains stack1 id1 = false ∧ stack1.Nodup ∧
        (∀ s ∈ stack1, s ∈ recordIds r.definitions) ∧
        stack1.length ≤ definedCount r.definitions) ∧
    (∀ out t, require r id fakes = some out → out.result = .error t →
      t.err ≠ .typeError →
      t.stack.Nodup ∧ (∀ s ∈ t.stack, s ∈ recordIds r.definitions) ∧
        t.stack.length ≤ definedCount r.definitions) ∧
    (∀ t, requireDepIds r id = some (.error t) →
      t.err ≠ .typeError ∧ t.stack.Nodup ∧ (∀ s ∈ t.stack, s ∈ recordIds r.definitions) ∧
        t.stack.length ≤ definedCount r.definitions) := by
  have hc : contains [] id = false := by cases id <;> simp [contains]
  have hnil : Recorded r.definitions [] := ⟨List.nodup_nil, by simp⟩
  refine ⟨require_isSome r id fakes, requireDepIds_isSome r id, ?_, ?_, ?_, ?_, ?_⟩
  · intro n run hn
    obtain ⟨out, ho⟩ := resolve_isSome r.definitions n id [] run
      List.nodup_nil (by simp) hc (by simpa using hn)
    obtain ⟨out2, ho2⟩ := resolve_isSome r.definitions (fuelFor r.definitions) id [] run
      List.nodup_nil (by simp) hc (by simpa using definedCount_le r.definitions)
    refine ⟨out, ho, ?_⟩
    rcases Nat.le_total n (fuelFor r.definitions) with h1 | h1
    · exact resolve_fuel _ _ _ h1 _ _ _ _ ho
    · have h3 := resolve_fuel _ _ _ h1 _ _ _ _ ho2
      rw [ho] at h3
      rw [ho2, h3]
  · intro n hn
    obtain ⟨res, ho⟩ := resolveDepIds_isSome r.definitions n id []
      List.nodup_nil (by simp) hc (by simpa using hn)
    obtain ⟨res2, ho2⟩ := requireDepIds_isSome r id
    refine ⟨res, ho, ?_⟩
    unfold requireDepIds at ho2 ⊢
    rcases Nat.le_total n (fuelFor r.definitions) with h1 | h1
    · exact resolveDepIds_fuel _ _ _ h1 _ _ _ ho
    · have h3 := resolveDepIds_fuel _ _ _ h1 _ _ _ ho2
      rw [ho] at h3
      rw [ho2, h3]
  · intro id1 stack1 hv
    obtain ⟨h1, h2⟩ := (visits_recorded _ _ _ hv).1 id [] rfl hc hnil
    exact ⟨h1, recorded_defined _ _ h2⟩
  · intro out t h hres hne
    exact recorded_defined _ _ (require_thrown_stack r id fakes out t h hres hne)
  · intro t h
    obtain ⟨h1, h2⟩ := resolveDepIds_thrown r.definitions (fuelFor r.definitions) id [] t hc
      hnil h
    exact ⟨h2, recorded_defined _ _ h1⟩

/-- C16, amended, on `registryABQ` at `a`: two ids are defined, three nested
calls are enough, the third is the call for `q`, entered with the stack
`[a, b]`, and `UndefinedId` for `q` is thrown on that stack. -/
theorem resolve_depth_bounded_witness :
    definedCount registryABQ.definitions + 1 = 3 ∧
    Visits registryABQ.definitions (.one (.str "a") []) (.str "q") ["a", "b"] ∧
    (require registryABQ (.str "a") none).map (fun o => o.result)
      = some (.error ⟨.undefinedId "q", ["a", "b"]⟩) ∧
    ((∃ out, require registryABQ (.str "a") none = some out) ∧
    (∃ res, requireDepIds registryABQ (.str "a") = some res) ∧
    (∀ n run, definedCount registryABQ.definitions + 1 ≤ n →
      ∃ out, resolve registryABQ.definitions n (.str "a") [] run = some out ∧
        resolve registryABQ.definitions (fuelFor registryABQ.definitions) (.str "a") [] run
          = some out) ∧
    (∀ n, definedCount registryABQ.definitions + 1 ≤ n →
      ∃ res, resolveDepIds registryABQ.definitions n (.str "a") [] = some res ∧
        requireDepIds registryABQ (.str "a") = some res) ∧
    (∀ id1 stack1, Visits registryABQ.definitions (.one (.str "a") []) id1 stack1 →
      contains stack1 id1 = false ∧ stack1.Nodup ∧
        (∀ s ∈ stack1, s ∈ recordIds registryABQ.definitions) ∧
        stack1.length ≤ definedCount registryABQ.definitions) ∧
    (∀ out t, require registryABQ (.str "a") none = some out → out.result = .error t →
      t.err ≠ .typeError →
      t.stack.Nodup ∧ (∀ s ∈ t.stack, s ∈ recordIds registryABQ.definitions) ∧
        t.stack.length ≤ definedCount registryABQ.definitions) ∧
    (∀ t, requireDepIds registryABQ (.str "a") = some (.error t) →
      t.err ≠ .typeError ∧ t.stack.Nodup ∧
        (∀ s ∈ t.stack, s ∈ recordIds registryABQ.definitions) ∧
        t.stack.length ≤ definedCount registryABQ.definitions)) :=
  ⟨rfl,
    Visits.deps "a" [] ⟨"a", [.str "b"], digits 1⟩ _ _ rfl
      (Visits.head _ _ _ _ _ rfl
        (Visits.deps "b" ["a"] ⟨"b", [.str "q"], digits 2⟩ _ _ rfl
          (Visits.head _ _ _ _ _ rfl (Visits.here _ _)))),
    rfl, resolve_depth_bounded registryABQ (.str "a") none⟩

/-- C17: when `resolve(id, true)` succeeds with the list `l`, the element at
every index `i` has a successful id-list resolution of its own, and each member
of that resolution occurs in `l` at an index smaller than `i`. -/
theorem requireDepIds_ordered (r : Registry) (id : Val) (l : List Val)
    (h : requireDepIds r id = some (.ok l)) (i : Nat) (hi : i < l.length) :
    ∃ le, requireDepIds r (l.get ⟨i, hi⟩) = some (.ok le) ∧
      ∀ d ∈ le, ∃ j, ∃ hj : j < l.length, j < i ∧ l.get ⟨j, hj⟩ = d := by
  have hl : IdList r.definitions (.one id []) l := resolveDepIds_sound _ _ _ _ _ h
  have hord := idList_ordered _ _ hl
  have hsplit : l = l.take i ++ l.get ⟨i, hi⟩ :: l.drop (i + 1) := by
    rw [List.get_eq_getElem, ← List.drop_eq_getElem_cons hi, List.take_append_drop]
  rw [hsplit] at hord
  obtain ⟨le, hle, hd⟩ := ordered_split _ _ _ _ _ hord
  refine ⟨le, requireDepIds_of_idList r _ [] le hle, ?_⟩
  intro d hdm
  have h1 := hd d hdm
  simp only [List.nil_append] at h1
  obtain ⟨j, hj, hjd⟩ := List.mem_take_iff_getElem.1 h1
  have hj1 : j < i := lt_of_lt_of_le hj (min_le_left _ _)
  have hj2 : j < l.length := lt_of_lt_of_le hj (min_le_right _ _)
  exact ⟨j, hj2, hj1, hjd⟩

/-- C17 on the diamond `registryABC`: the id list of `c` is `[a, b]`, and the
theorem applies to `b` at index 1. -/
theorem requireDepIds_ordered_witness :
    requireDepIds registryABC (.str "c") = some (.ok [.str "a", .str "b"]) ∧
    ∃ le, requireDepIds registryABC ([Val.str "a", Val.str "b"].get ⟨1, by decide⟩)
        = some (.ok le) ∧
      ∀ d ∈ le, ∃ j, ∃ hj : j < [Val.str "a", Val.str "b"].length,
        j < 1 ∧ [Val.str "a", Val.str "b"].get ⟨j, hj⟩ = d :=
  ⟨rfl, requireDepIds_ordered registryABC (.str "c") [.str "a", .str "b"] rfl 1 (by decide)⟩

/-- C18, at a failing input: after `define('__proto__', [], function () { return {}; })`,
`define('u', ['__proto__', '__proto__'], ..)` and a successful `require('u')`, the
id `u` is instantiated while its declared dependency `__proto__` is not in the
instance table. -/
theorem instantiated_without_dependency :
    (require registryProtoUser (.str "u") none).map
        (fun o => (keys o.registry.instances.own,
          (ownGet o.registry.definitions.own "u").map (fun d => d.deps),
          has o.registry.instances "__proto__"))
      = some (["u"], some [.str "__proto__", .str "__proto__"], false) :=
  rfl

/-- C19, at a failing input: after `define('a', [], ..)` and
`define('__proto__', ['a'], ..)` the call `require('__proto__')` succeeds, the
id-list resolution of `__proto__` is `[a]`, and afterwards the instance table
holds `a` but not `__proto__`. -/
theorem successful_require_not_instantiated :
    (require registryProtoDep (.str "__proto__") none).map
        (fun o => (o.result, keys o.registry.instances.own))
      = some (.ok (.num 21), ["a"]) ∧
    requireDepIds registryProtoDep (.str "__proto__") = some (.ok [.str "a"]) ∧
    keys registryProtoDep.instances.own = [] :=
  ⟨rfl, rfl, rfl⟩

/-- C20: a failed `require` can leave new instances behind: in `registryAPQ`
(`a: []`, `p: [a, q]`, `q` undefined) `require('p')` throws `UndefinedId` naming
`q`, and `a`, which resolved before, is instantiated afterwards. -/
theorem failed_require_not_atomic :
    (∃ r id out t, Reachable r ∧ require r id none = some out ∧ out.result = .error t ∧
      r.instances.own.length < out.registry.instances.own.length) ∧
    registryAPQ.instances.own = [] ∧
    (require registryAPQ (.str "p") none).map (fun o => (o.result, o.registry.instances.own))
      = some (.error ⟨.undefinedId "q", ["p"]⟩, [("a", .num 1)]) := by
  refine ⟨⟨registryAPQ, .str "p",
    ⟨.error ⟨.undefinedId "q", ["p"]⟩,
      { registryAPQ with instances := ⟨[("a", .num 1)], none⟩, calls := ["a"] }, none⟩,
    ⟨.undefinedId "q", ["p"]⟩, ?_, rfl, rfl, by decide⟩, rfl, rfl⟩
  exact Reachable.define _ _ _ _ (Reachable.define _ _ _ _ Reachable.create)

end Modulejs
